import Mathlib

set_option maxRecDepth 100000

/-!
Shallow embedding of `gutenberg.py` (a Project Gutenberg mirroring tool) in
Lean 4, together with proofs checking the natural-language specification's
claims against the code.

Conventions:
* Python strings are Lean `String`s; character-level work happens on
  `String.data : List Char`, matching Python's code-point semantics.
* Python `str` comparison (`<`, `>=`) is code-point lexicographic; we embed it
  as an executable Boolean comparison `strLtb` on `List Char`.  SQLite's
  default BINARY collation on UTF-8 text induces the same order, so the same
  comparison models the SQL `>` on `last_modified` columns.
* Calls into the Python standard library (`unicodedata.normalize`,
  `str.casefold`, `str.split`, `str.splitlines`, `str.strip`) are modelled by
  executable Lean functions that are faithful to the documented Unicode
  behaviour on the character repertoire exercised here; each such model is
  marked in its doc comment.
-/

namespace Gutenberg

/-- Python `s.startswith(p)`: `p` is a prefix of `s` (code-point wise). -/
def pyStartsWith (s p : String) : Bool :=
  p.data.isPrefixOf s.data

/-- Code-point lexicographic strict order on character lists; this is the
order Python uses for `str` comparison and SQLite's BINARY collation induces
on UTF-8 encoded text. -/
def strLtb : List Char → List Char → Bool
  | [], [] => false
  | [], _ :: _ => true
  | _ :: _, [] => false
  | a :: as, b :: bs =>
    if a.toNat < b.toNat then true
    else if b.toNat < a.toNat then false
    else strLtb as bs

/-- Python `a < b` on strings. -/
def pyLt (a b : String) : Bool := strLtb a.data b.data

/-- Python `a >= b` on strings (total order, so `a >= b` iff `¬ a < b`). -/
def pyGe (a b : String) : Bool := ! pyLt a b

theorem strLtb_irrefl (l : List Char) : strLtb l l = false := by
  induction l with
  | nil => rfl
  | cons a as ih => simp [strLtb, ih]

theorem strLtb_trans : ∀ {a b c : List Char},
    strLtb a b = true → strLtb b c = true → strLtb a c = true := by
  intro a
  induction a with
  | nil =>
    intro b c hab hbc
    cases b with
    | nil => exact absurd hab (by simp [strLtb])
    | cons y ys =>
      cases c with
      | nil => exact absurd hbc (by simp [strLtb])
      | cons z zs => simp [strLtb]
  | cons x xs ih =>
    intro b c hab hbc
    cases b with
    | nil => exact absurd hab (by simp [strLtb])
    | cons y ys =>
      cases c with
      | nil => exact absurd hbc (by simp [strLtb])
      | cons z zs =>
        simp only [strLtb] at hab hbc ⊢
        split at hab
        · rename_i hxy
          split at hbc
          · rename_i hyz
            have : x.toNat < z.toNat := Nat.lt_trans hxy hyz
            simp [this]
          · split at hbc
            · exact absurd hbc (by simp)
            · rename_i hyz hzy
              have : x.toNat < z.toNat := by omega
              simp [this]
        · rename_i hxy
          split at hab
          · exact absurd hab (by simp)
          · rename_i hyx
            split at hbc
            · rename_i hyz
              have : x.toNat < z.toNat := by omega
              simp [this]
            · split at hbc
              · exact absurd hbc (by simp)
              · rename_i hyz hzy
                have h1 : ¬ x.toNat < z.toNat := by omega
                have h2 : ¬ z.toNat < x.toNat := by omega
                simp only [h1, h2, if_false]
                exact ih hab hbc

theorem strLtb_antisymm : ∀ {a b : List Char},
    strLtb a b = false → strLtb b a = false → a = b := by
  intro a
  induction a with
  | nil =>
    intro b hab _
    cases b with
    | nil => rfl
    | cons y ys => exact absurd hab (by simp [strLtb])
  | cons x xs ih =>
    intro b hab hba
    cases b with
    | nil => exact absurd hba (by simp [strLtb])
    | cons y ys =>
      simp only [strLtb] at hab hba
      by_cases hxy : x.toNat < y.toNat
      · simp [hxy] at hab
      · by_cases hyx : y.toNat < x.toNat
        · simp [hyx] at hba
        · simp only [hxy, hyx, if_neg, if_false] at hab hba
          have hx : x = y := by
            have hn : x.toNat = y.toNat := by omega
            have : x.val = y.val := by
              apply UInt32.ext
              simpa [Char.toNat] using hn
            exact Char.ext this
          rw [hx, ih hab hba]

theorem strLtb_asymm {a b : List Char} (hab : strLtb a b = true) :
    strLtb b a = false := by
  cases h : strLtb b a with
  | false => rfl
  | true =>
    have := strLtb_trans hab h
    rw [strLtb_irrefl] at this
    exact absurd this (by simp)

theorem pyGe_trans {a b c : String} (h1 : pyGe a b = true) (h2 : pyGe b c = true) :
    pyGe a c = true := by
  simp only [pyGe, pyLt, Bool.not_eq_true'] at h1 h2 ⊢
  cases hac : strLtb a.data c.data with
  | false => rfl
  | true =>
    exfalso
    cases hbc : strLtb b.data c.data with
    | true => rw [hbc] at h2; exact absurd h2 (by decide)
    | false =>
      cases hcb : strLtb c.data b.data with
      | false =>
        have hbceq : b.data = c.data := strLtb_antisymm hbc hcb
        rw [hbceq] at h1
        rw [h1] at hac
        exact absurd hac (by decide)
      | true =>
        have : strLtb a.data b.data = true := strLtb_trans hac hcb
        rw [this] at h1
        exact absurd h1 (by decide)

theorem pyGe_total (a b : String) : (pyGe a b || pyGe b a) = true := by
  simp only [pyGe, pyLt]
  cases h : strLtb a.data b.data with
  | false => simp
  | true => simp [strLtb_asymm h]

/-! ## Boilerplate marker sets (verbatim from the source) -/

def TEXT_START_MARKERS : List String := [
  "*END*THE SMALL PRINT",
  "*** START OF THE PROJECT GUTENBERG",
  "*** START OF THIS PROJECT GUTENBERG",
  "This etext was prepared by",
  "E-text prepared by",
  "Produced by",
  "Distributed Proofreading Team",
  "Proofreading Team at http://www.pgdp.net",
  "http://gallica.bnf.fr)",
  "      http://archive.org/details/",
  "http://www.pgdp.net",
  "by The Internet Archive)",
  "by The Internet Archive/Canadian Libraries",
  "by The Internet Archive/American Libraries",
  "public domain material from the Internet Archive",
  "Internet Archive)",
  "Internet Archive/Canadian Libraries",
  "Internet Archive/American Libraries",
  "material from the Google Print project",
  "*END THE SMALL PRINT",
  "***START OF THE PROJECT GUTENBERG",
  "This etext was produced by",
  "*** START OF THE COPYRIGHTED",
  "The Project Gutenberg",
  "http://gutenberg.spiegel.de/ erreichbar.",
  "Project Runeberg publishes",
  "Beginning of this Project Gutenberg",
  "Project Gutenberg Online Distributed",
  "Gutenberg Online Distributed",
  "the Project Gutenberg Online Distributed",
  "Project Gutenberg TEI",
  "This eBook was prepared by",
  "http://gutenberg2000.de erreichbar.",
  "This Etext was prepared by",
  "This Project Gutenberg Etext was prepared by",
  "Gutenberg Distributed Proofreaders",
  "Project Gutenberg Distributed Proofreaders",
  "the Project Gutenberg Online Distributed Proofreading Team",
  "**The Project Gutenberg",
  "*SMALL PRINT!",
  "More information about this book is at the top of this file.",
  "tells you about restrictions in how the file may be used.",
  "l'authorization à les utilizer pour preparer ce texte.",
  "of the etext through OCR.",
  "*****These eBooks Were Prepared By Thousands of Volunteers!*****",
  "We need your donations more than ever!",
  " *** START OF THIS PROJECT GUTENBERG",
  "****     SMALL PRINT!",
  "[\"Small Print\" V.",
  "      (http://www.ibiblio.org/gutenberg/",
  "and the Project Gutenberg Online Distributed Proofreading Team",
  "Mary Meehan, and the Project Gutenberg Online Distributed Proofreading",
  "                this Project Gutenberg edition."
]

def TEXT_END_MARKERS : List String := [
  "*** END OF THE PROJECT GUTENBERG",
  "*** END OF THIS PROJECT GUTENBERG",
  "***END OF THE PROJECT GUTENBERG",
  "End of the Project Gutenberg",
  "End of The Project Gutenberg",
  "Ende dieses Project Gutenberg",
  "by Project Gutenberg",
  "End of Project Gutenberg",
  "End of this Project Gutenberg",
  "Ende dieses Projekt Gutenberg",
  "        ***END OF THE PROJECT GUTENBERG",
  "*** END OF THE COPYRIGHTED",
  "End of this is COPYRIGHTED",
  "Ende dieses Etextes ",
  "Ende dieses Project Gutenber",
  "Ende diese Project Gutenberg",
  "**This is a COPYRIGHTED Project Gutenberg Etext, Details Above**",
  "Fin de Project Gutenberg",
  "The Project Gutenberg Etext of ",
  "Ce document fut presente en lecture",
  "Ce document fut présenté en lecture",
  "More information about this book is at the top of this file.",
  "We need your donations more than ever!",
  "END OF PROJECT GUTENBERG",
  " End of the Project Gutenberg",
  " *** END OF THIS PROJECT GUTENBERG"
]

def LEGALESE_START_MARKERS : List String := ["<<THIS ELECTRONIC VERSION OF"]

def LEGALESE_END_MARKERS : List String := ["SERVICE THAT CHARGES FOR DOWNLOAD"]

/-- `any(line.startswith(token) for token in markers)`. -/
def startsAny (line : String) (markers : List String) : Bool :=
  markers.any (fun t => pyStartsWith line t)

/-- The per-line loop of `remove_boilerplate`.  Arguments mirror the Python
state: remaining lines, accumulator `out`, emitted-line counter `i`, and
`ignore_section`.  The returned triple is `(out, i, footer_found)`; a `true`
third component means the loop stopped at a footer marker (`break`), so the
remaining lines were discarded. -/
def bpLoop : List String → List String → Nat → Bool → List String × Nat × Bool
  | [], out, i, _ => (out, i, false)
  | line :: rest, out, i, ign =>
    if i ≤ 600 ∧ startsAny line TEXT_START_MARKERS then
      -- end of header: delete the output produced so far, don't count the line
      bpLoop rest [] i ign
    else if 100 ≤ i ∧ startsAny line TEXT_END_MARKERS then
      -- beginning of the footer: stop output
      (out, i, true)
    else if startsAny line LEGALESE_START_MARKERS then
      bpLoop rest out i true
    else if startsAny line LEGALESE_END_MARKERS then
      bpLoop rest out i false
    else if ign then
      bpLoop rest out i ign
    else
      bpLoop rest (out ++ [line]) (i + 1) ign

/-! ## Python string-method models: `splitlines`, `split`, `strip`

Modelled from the Python standard library: the character classes below are
the Unicode whitespace and line-boundary sets Python 3 uses for `str.split`,
`str.strip` and `str.splitlines`. -/

def PY_WHITESPACE : List Char := [' ', '\t', '\n', '\r', '\x0b', '\x0c',
  '\x1c', '\x1d', '\x1e', '\x1f', '\x85', '\xa0',
  '\u1680', '\u2000', '\u2001', '\u2002', '\u2003', '\u2004', '\u2005', '\u2006', '\u2007', '\u2008', '\u2009', '\u200a', '\u2028', '\u2029', '\u202f', '\u205f', '\u3000']

def PY_LINEBREAKS : List Char := ['\n', '\r', '\x0b', '\x0c', '\x1c', '\x1d',
  '\x1e', '\x85', '\u2028', '\u2029']

def isPyWs (c : Char) : Bool := PY_WHITESPACE.contains c

def isPyBreak (c : Char) : Bool := PY_LINEBREAKS.contains c

/-- Python `str.splitlines` on a character list: split at every line boundary
(`\r\n` counts as a single boundary), boundaries are not kept, a trailing
boundary does not produce a final empty line.  `acc` is the reversed current
line. -/
def splitlinesAux : List Char → List Char → Bool → List (List Char)
  | [], acc, _ => if acc.isEmpty then [] else [acc.reverse]
  | c :: rest, acc, lastCR =>
    if lastCR = true ∧ c = '\n' then
      -- the LF of a CRLF pair: the boundary was already taken at the CR
      splitlinesAux rest acc false
    else if isPyBreak c then
      acc.reverse :: splitlinesAux rest [] (c = '\r')
    else
      splitlinesAux rest (c :: acc) false

/-- Python `text.splitlines()` producing `String` lines. -/
def pySplitlines (s : String) : List String :=
  (splitlinesAux s.data [] false).map String.mk

/-- Python `str.strip()` on a character list: drop leading and trailing
Unicode whitespace. -/
def stripL (l : List Char) : List Char :=
  ((l.dropWhile isPyWs).reverse.dropWhile isPyWs).reverse

/-- Python `s.strip()`. -/
def pyStrip (s : String) : String := String.mk (stripL s.data)

/-- `remove_boilerplate`: split into lines, run the marker-driven loop, then
`"\n".join(out).strip() + "\n"`. -/
def removeBoilerplate (text : String) : String :=
  let r := bpLoop (pySplitlines text) [] 0 false
  pyStrip (String.intercalate "\n" r.1) ++ "\n"

/-! ## `cleanup` (storage canonicalization) -/

/-- Modelled from the Python standard library: `unicodedata.normalize("NFC", ·)`
as a per-character map.  On the repertoire exercised here NFC only rewrites a
few canonical-singleton code points; all other characters are left unchanged.
The table's outputs are themselves NFC-stable. -/
def NFC_TBL : List (Char × String) := [('Å', "Å"), ('Ω', "Ω")]

def nfcChar (c : Char) : List Char :=
  match NFC_TBL.find? (fun e => e.1 = c) with
  | some e => e.2.data
  | none => [c]

def nfc (l : List Char) : List Char := l.flatMap nfcChar

/-- `"\n".join(lines)`. -/
def joinNl : List (List Char) → List Char
  | [] => []
  | [t] => t
  | t :: ts => t ++ '\n' :: joinNl ts

/-- `cleanup`: strip one leading BOM if present, NFC-normalize, uniformize
line breaks to LF, and strip surrounding whitespace. -/
def cleanup (text : String) : String :=
  let t := if pyStartsWith text "\uFEFF" then text.data.drop 1 else text.data
  let t := nfc t
  let t := joinNl (splitlinesAux t [] false)
  String.mk (stripL t)

example : cleanup " \uFEFFa\r\nb\rc\n\n " = "\uFEFFa\nb\nc" := by decide
example : pySplitlines "a\r\nb\n\nc\r" = ["a", "b", "", "c"] := by decide


/-! ## Claims C2 and C3: the boilerplate stripper's marker windows -/

/-- C2: while the emitted-line counter `i` is at most 600, a line starting
with any header-end marker clears the entire accumulator and is skipped
without incrementing `i`; repeated in-window markers therefore each reset the
accumulator, so with markers at two positions everything before the second
one is discarded (illustrated by the closed second conjunct, where only the
line after the second marker survives). -/
theorem claim_C2_header_reset :
    (∀ (line : String) (rest out : List String) (i : Nat) (ign : Bool),
      i ≤ 600 → startsAny line TEXT_START_MARKERS = true →
      bpLoop (line :: rest) out i ign = bpLoop rest [] i ign)
    ∧ bpLoop ["x", "Produced by A", "y1", "y2", "Produced by B", "z"] [] 0 false
        = (["z"], 4, false) := by
  constructor
  · intro line rest out i ign hi hm
    simp only [bpLoop]
    rw [if_pos ⟨hi, hm⟩]
  · decide

theorem claim_C2_header_reset_witness :
    (0 : Nat) ≤ 600 ∧ startsAny "Produced by X" TEXT_START_MARKERS = true ∧
    bpLoop ["Produced by X", "y"] ["w"] 0 false = bpLoop ["y"] [] 0 false :=
  ⟨by decide, by decide,
   claim_C2_header_reset.1 "Produced by X" ["y"] ["w"] 0 false (by decide) (by decide)⟩

/-- C3 counterexample: the marker
`"More information about this book is at the top of this file."` belongs to
both the header-end and the footer-start sets.  After 100 plain lines the
counter is 100, so the claim says this footer-start line must stop processing
and every later line must be absent from the output.  The code instead takes
the header-reset branch (checked first while `i ≤ 600`), clears the
accumulator, keeps going, and emits the later line `"ZZZ"`. -/
theorem claim_C3_counterexample :
    startsAny "More information about this book is at the top of this file."
        TEXT_END_MARKERS = true
    ∧ bpLoop
        (List.replicate 100 "a" ++
          ["More information about this book is at the top of this file.", "ZZZ"])
        [] 0 false
      = (["ZZZ"], 101, false) := by
  constructor
  · decide
  · decide

/-- C3 (amended): once `i ≥ 100`, a line starting with a footer-start marker
stops processing — the line itself and everything after it are discarded —
provided the line does not also trigger the in-window header reset (a line
starting with a header-end marker while `i ≤ 600`), which the code checks
first; and the footer branch can only ever fire after at least 100 lines have
been emitted, so a run that emits fewer than 100 lines never stops at a
footer marker. -/
theorem claim_C3_footer_stop :
    (∀ (line : String) (rest out : List String) (i : Nat) (ign : Bool),
      100 ≤ i →
      ¬ (i ≤ 600 ∧ startsAny line TEXT_START_MARKERS = true) →
      startsAny line TEXT_END_MARKERS = true →
      bpLoop (line :: rest) out i ign = (out, i, true))
    ∧ (∀ (lines out : List String) (i : Nat) (ign : Bool),
      (bpLoop lines out i ign).2.2 = true → 100 ≤ (bpLoop lines out i ign).2.1) := by
  constructor
  · intro line rest out i ign h100 hns hend
    simp only [bpLoop]
    rw [if_neg hns, if_pos ⟨h100, hend⟩]
  · intro lines
    induction lines with
    | nil =>
      intro out i ign h
      simp [bpLoop] at h
    | cons line rest ih =>
      intro out i ign h
      simp only [bpLoop] at h ⊢
      by_cases h1 : i ≤ 600 ∧ startsAny line TEXT_START_MARKERS = true
      · rw [if_pos h1] at h ⊢
        exact ih _ _ _ h
      · rw [if_neg h1] at h ⊢
        by_cases h2 : 100 ≤ i ∧ startsAny line TEXT_END_MARKERS = true
        · rw [if_pos h2] at h ⊢
          exact h2.1
        · rw [if_neg h2] at h ⊢
          by_cases h3 : startsAny line LEGALESE_START_MARKERS = true
          · rw [if_pos h3] at h ⊢
            exact ih _ _ _ h
          · rw [if_neg h3] at h ⊢
            by_cases h4 : startsAny line LEGALESE_END_MARKERS = true
            · rw [if_pos h4] at h ⊢
              exact ih _ _ _ h
            · rw [if_neg h4] at h ⊢
              by_cases h5 : ign = true
              · rw [if_pos h5] at h ⊢
                exact ih _ _ _ h
              · rw [if_neg h5] at h ⊢
                exact ih _ _ _ h

theorem claim_C3_footer_stop_witness :
    bpLoop ["*** END OF THE PROJECT GUTENBERG X", "tail"] ["kept"] 100 false
      = (["kept"], 100, true)
    ∧ 100 ≤ (bpLoop (List.replicate 100 "a" ++ ["*** END OF THE PROJECT GUTENBERG"])
        [] 0 false).2.1 :=
  ⟨claim_C3_footer_stop.1 "*** END OF THE PROJECT GUTENBERG X" ["tail"] ["kept"] 100 false
      (by decide) (by decide) (by decide),
   claim_C3_footer_stop.2 _ _ _ _ (by decide)⟩

/-! ## Claim C1: the scoped download entry point (`Gutenberg.download`)

The persistent store is embedded as data: `Metadata` rows as a list of
`MetaRow`, the `Data` table's `last_modified` column as a function
`Nat → Option String` (`none` = no stored content), and the full-text `MATCH`
(whose internals the store owns) as an opaque predicate on keys. -/

structure MetaRow where
  key : Nat
  name : String
  encoding : String
  lastModified : String
deriving DecidableEq, Repr

/-- The task-selection query of `Gutenberg.download`:
`WHERE Search MATCH ? AND Metadata.last_modified > COALESCE(Data.last_modified, '')`
with SQLite's BINARY text comparison. -/
def selectDownloadTasks (matchesQ : Nat → Bool) (metadata : List MetaRow)
    (stored : Nat → Option String) : List MetaRow :=
  metadata.filter (fun m =>
    matchesQ m.key && pyLt ((stored m.key).getD "") m.lastModified)

/-- Effect of `download_keys` on `Data.last_modified`: each task whose
download succeeded gets `INSERT OR REPLACE`d with the catalog-reported
timestamp (`download` hands `prev_mod`, the `Metadata.last_modified` value,
through `download_ebook_text` to the stored row). -/
def applyDownloads (tasks : List MetaRow) (ok : Nat → Bool)
    (stored : Nat → Option String) : Nat → Option String :=
  fun k =>
    match tasks.find? (fun m => m.key == k) with
    | some m => if ok k then some m.lastModified else stored k
    | none => stored k

/-- The claim's own wording of the selection predicate: the book matches the
search expression and either has no stored content at all, or its
catalog-reported modification time is strictly newer than the stored one. -/
def specSelects (matchesQ : Nat → Bool) (stored : Nat → Option String)
    (m : MetaRow) : Bool :=
  matchesQ m.key &&
    (match stored m.key with
     | none => true
     | some s => pyLt s m.lastModified)

theorem strLtb_nil_left (l : List Char) : strLtb [] l = true ↔ l ≠ [] := by
  cases l with
  | nil => simp [strLtb]
  | cons c cs => simp [strLtb]

/-- C1: the scoped download entry point selects exactly the books matching
the query that have no stored content or a strictly newer catalog timestamp
(first conjunct, assuming catalog timestamps are non-empty strings, which the
schema's `NOT NULL` plus the extractor's fixed `YYYY-MM-DD HH:MM:SS` format
guarantee); and if all selected downloads succeed, re-issuing the same query
against the updated store selects nothing, i.e. the second call performs zero
downloads (second conjunct). -/
theorem claim_C1_download_sync
    (matchesQ : Nat → Bool) (metadata : List MetaRow) (stored : Nat → Option String)
    (hne : ∀ m ∈ metadata, m.lastModified ≠ "")
    (hkeys : (metadata.map (fun m => m.key)).Nodup) :
    selectDownloadTasks matchesQ metadata stored
      = metadata.filter (specSelects matchesQ stored)
    ∧ selectDownloadTasks matchesQ metadata
        (applyDownloads (selectDownloadTasks matchesQ metadata stored)
          (fun _ => true) stored) = [] := by
  constructor
  · apply List.filter_congr
    intro m hm
    simp only [specSelects]
    cases hs : stored m.key with
    | none =>
      simp only [hs, Option.getD_none]
      have hlm : m.lastModified.data ≠ [] := by
        intro h
        exact hne m hm (String.ext h)
      have hlt : pyLt "" m.lastModified = true :=
        (strLtb_nil_left _).mpr hlm
      rw [hlt]
    | some s => simp [hs]
  · rw [selectDownloadTasks, List.filter_eq_nil_iff]
    intro m hm
    cases hfind : (selectDownloadTasks matchesQ metadata stored).find?
        (fun x => x.key == m.key) with
    | some m' =>
      have hm'sel : m' ∈ selectDownloadTasks matchesQ metadata stored :=
        List.mem_of_find?_eq_some hfind
      have hkey : m'.key = m.key := by
        simpa using List.find?_some hfind
      have heq : m' = m :=
        List.inj_on_of_nodup_map hkeys (List.mem_of_mem_filter hm'sel) hm hkey
      have hstored : applyDownloads (selectDownloadTasks matchesQ metadata stored)
          (fun _ => true) stored m.key = some m.lastModified := by
        simp only [applyDownloads, hfind, heq, if_pos]
      simp only [hstored, Option.getD_some]
      simp [pyLt, strLtb_irrefl]
    | none =>
      have hstored : applyDownloads (selectDownloadTasks matchesQ metadata stored)
          (fun _ => true) stored m.key = stored m.key := by
        simp only [applyDownloads, hfind]
      simp only [hstored]
      intro hsel
      have hmem : m ∈ selectDownloadTasks matchesQ metadata stored :=
        List.mem_filter.mpr ⟨hm, hsel⟩
      have := (List.find?_eq_none.mp hfind) m hmem
      simp at this

/-- Two catalog rows: book 1 has stored content older than the catalog says,
book 2 has stored content exactly as new as the catalog says. -/
def exampleMetadata : List MetaRow :=
  [⟨1, "1-0.txt", "utf-8", "2020-06-01 00:00:00"⟩,
   ⟨2, "2-0.txt", "utf-8", "2020-06-01 00:00:00"⟩]

def exampleStored : Nat → Option String := fun k =>
  if k = 1 then some "2020-01-01 00:00:00"
  else if k = 2 then some "2020-06-01 00:00:00"
  else none

theorem claim_C1_download_sync_witness :
    (selectDownloadTasks (fun _ => true) exampleMetadata exampleStored
        = exampleMetadata.filter (specSelects (fun _ => true) exampleStored)
      ∧ selectDownloadTasks (fun _ => true) exampleMetadata
          (applyDownloads
            (selectDownloadTasks (fun _ => true) exampleMetadata exampleStored)
            (fun _ => true) exampleStored) = [])
    ∧ selectDownloadTasks (fun _ => true) exampleMetadata exampleStored
        = [⟨1, "1-0.txt", "utf-8", "2020-06-01 00:00:00"⟩] :=
  ⟨claim_C1_download_sync (fun _ => true) exampleMetadata exampleStored
      (by decide) (by decide),
   by decide⟩

/-! ## Claim C6: `make_book_url` -/

/-- `make_book_url`, with the randomly drawn mirror made an explicit argument
(`random.choice(gutenberg_mirrors())` picks it; URL construction is
deterministic given the drawn mirror). -/
def make_book_url (mirror : String) (key : Nat) (name : String) : String :=
  if pyStartsWith name "etext" then
    mirror ++ "/" ++ name
  else
    let parts :=
      if key < 10 then "0/" ++ Nat.repr key
      else String.intercalate "/" ((Nat.repr key).data.dropLast.map (fun c => String.mk [c]))
        ++ "/" ++ Nat.repr key
    mirror ++ "/" ++ parts ++ "/" ++ name

/-- The claim's wording of the shard: `0/<id>` for id < 10; otherwise the
id's decimal digits minus the last one joined by `/`, followed by the id. -/
def shardSpec (key : Nat) : String :=
  if key < 10 then "0/" ++ Nat.repr key
  else String.intercalate "/" ((Nat.repr key).data.dropLast.map (fun c => String.mk [c]))
    ++ "/" ++ Nat.repr key

/-- C6: the URL builder bypasses sharding for legacy directory-bearing names
(which are exactly the `etext…/…` names the extractor produces) and otherwise
inserts the claim's shard between mirror root and file name; shards for ids 5
and 11716 are as the claim states. -/
theorem claim_C6_make_book_url :
    (∀ (mirror : String) (key : Nat) (name : String),
      make_book_url mirror key name =
        if pyStartsWith name "etext" then mirror ++ "/" ++ name
        else mirror ++ "/" ++ shardSpec key ++ "/" ++ name)
    ∧ shardSpec 5 = "0/5"
    ∧ shardSpec 11716 = "1/1/7/1/11716"
    ∧ make_book_url "https://www.ibiblio.org/pub/docs/books/gutenberg" 123
        "etext96/zncli10.txt"
      = "https://www.ibiblio.org/pub/docs/books/gutenberg/etext96/zncli10.txt" := by
  refine ⟨?_, by decide, by decide, by decide⟩
  intro mirror key name
  by_cases h : pyStartsWith name "etext" = true
  · simp [make_book_url, shardSpec, h]
  · by_cases hk : key < 10
    · simp [make_book_url, shardSpec, h, hk]
    · simp [make_book_url, shardSpec, h, hk]

/-! ## Claim C7: `get_last_modified` and `download_ebook_text`

The HTTP layer is out of scope: the response is embedded as its parsed
`Last-modified` header (a date-time tuple, as `email.utils.parsedate`
produces) plus its body bytes. -/

structure PyDateTime where
  year : Nat
  month : Nat
  day : Nat
  hour : Nat
  minute : Nat
  second : Nat
deriving DecidableEq, Repr

/-- Gregorian leap year, as `datetime.timedelta` arithmetic observes it. -/
def isLeapYear (y : Nat) : Bool :=
  (y % 4 = 0 && y % 100 ≠ 0) || y % 400 = 0

def daysInMonth (y m : Nat) : Nat :=
  if m = 2 then (if isLeapYear y then 29 else 28)
  else if m = 4 ∨ m = 6 ∨ m = 9 ∨ m = 11 then 30
  else 31

/-- Modelled from the Python standard library: `dt + datetime.timedelta(1)`. -/
def addOneDay (d : PyDateTime) : PyDateTime :=
  if d.day < daysInMonth d.year d.month then
    ⟨d.year, d.month, d.day + 1, d.hour, d.minute, d.second⟩
  else if d.month < 12 then
    ⟨d.year, d.month + 1, 1, d.hour, d.minute, d.second⟩
  else
    ⟨d.year + 1, 1, 1, d.hour, d.minute, d.second⟩

def pad2 (n : Nat) : String :=
  if n < 10 then "0" ++ Nat.repr n else Nat.repr n

def pad4 (n : Nat) : String :=
  if n < 10 then "000" ++ Nat.repr n
  else if n < 100 then "00" ++ Nat.repr n
  else if n < 1000 then "0" ++ Nat.repr n
  else Nat.repr n

/-- `time.strftime("%Y-%m-%d %H:%M:%S", …)`. -/
def fmtDateTime (d : PyDateTime) : String :=
  pad4 d.year ++ "-" ++ pad2 d.month ++ "-" ++ pad2 d.day ++ " " ++
    pad2 d.hour ++ ":" ++ pad2 d.minute ++ ":" ++ pad2 d.second

/-- `get_last_modified`: the parsed `Last-modified` response header plus a
one-day slop, formatted like SQLite's `datetime()`. -/
def get_last_modified (server : PyDateTime) : String :=
  fmtDateTime (addOneDay server)

/-- Modelled from the Python standard library: `bytes.decode("iso-8859-1")`.
Latin-1 maps every byte to the code point of the same value, so it never
fails — which is why the fallback chain in `download_ebook_text` always
succeeds. -/
def decodeLatin1 (data : List Nat) : String :=
  String.mk (data.map (fun b => Char.ofNat b))

/-- Modelled from the Python standard library: `bytes.decode("utf-8")`
(rejecting truncated sequences, bad continuations, overlong forms and
surrogates, as CPython does). `acc` holds the decoded characters reversed. -/
def decodeUtf8Aux : List Nat → List Char → Option (List Char)
  | [], acc => some acc.reverse
  | b :: rest, acc =>
    if b < 0x80 then decodeUtf8Aux rest (Char.ofNat b :: acc)
    else if 0xC2 ≤ b ∧ b ≤ 0xDF then
      match rest with
      | b2 :: rest' =>
        if 0x80 ≤ b2 ∧ b2 ≤ 0xBF then
          decodeUtf8Aux rest' (Char.ofNat ((b - 0xC0) * 64 + (b2 - 0x80)) :: acc)
        else none
      | [] => none
    else if 0xE0 ≤ b ∧ b ≤ 0xEF then
      match rest with
      | b2 :: b3 :: rest' =>
        let v := (b - 0xE0) * 4096 + (b2 - 0x80) * 64 + (b3 - 0x80)
        if 0x80 ≤ b2 ∧ b2 ≤ 0xBF ∧ 0x80 ≤ b3 ∧ b3 ≤ 0xBF ∧ 0x800 ≤ v ∧
            ¬ (0xD800 ≤ v ∧ v ≤ 0xDFFF) then
          decodeUtf8Aux rest' (Char.ofNat v :: acc)
        else none
      | _ => none
    else if 0xF0 ≤ b ∧ b ≤ 0xF4 then
      match rest with
      | b2 :: b3 :: b4 :: rest' =>
        let v := (b - 0xF0) * 262144 + (b2 - 0x80) * 4096 + (b3 - 0x80) * 64 +
          (b4 - 0x80)
        if 0x80 ≤ b2 ∧ b2 ≤ 0xBF ∧ 0x80 ≤ b3 ∧ b3 ≤ 0xBF ∧ 0x80 ≤ b4 ∧
            b4 ≤ 0xBF ∧ 0x10000 ≤ v ∧ v ≤ 0x10FFFF then
          decodeUtf8Aux rest' (Char.ofNat v :: acc)
        else none
      | _ => none
    else none

def decodeUtf8 (data : List Nat) : Option String :=
  (decodeUtf8Aux data []).map String.mk

/-- Modelled from the Python standard library: the `windows-1252` table for
the 0x80–0x9F block; the five holes (0x81, 0x8D, 0x8F, 0x90, 0x9D) are
undefined and make the decode fail. -/
def CP1252_TBL : List (Nat × Char) := [
  (0x80, '€'), (0x82, '‚'), (0x83, 'ƒ'), (0x84, '„'),
  (0x85, '…'), (0x86, '†'), (0x87, '‡'), (0x88, 'ˆ'),
  (0x89, '‰'), (0x8a, 'Š'), (0x8b, '‹'), (0x8c, 'Œ'),
  (0x8e, 'Ž'), (0x91, '‘'), (0x92, '’'), (0x93, '“'),
  (0x94, '”'), (0x95, '•'), (0x96, '–'), (0x97, '—'),
  (0x98, '˜'), (0x99, '™'), (0x9a, 'š'), (0x9b, '›'),
  (0x9c, 'œ'), (0x9e, 'ž'), (0x9f, 'Ÿ')]

def cp1252Char (b : Nat) : Option Char :=
  if b < 0x80 ∨ (0xA0 ≤ b ∧ b ≤ 0xFF) then some (Char.ofNat b)
  else (CP1252_TBL.find? (fun e => e.1 = b)).map (fun e => e.2)

def decodeCp1252 (data : List Nat) : Option String :=
  (data.mapM cp1252Char).map (fun cs => String.mk cs)

/-- Modelled from the Python standard library: `iso-8859-15` is Latin-1 with
eight positions replaced; it is also total on bytes. -/
def latin9Char (b : Nat) : Char :=
  if b = 0xA4 then '€' else if b = 0xA6 then 'Š'
  else if b = 0xA8 then 'š' else if b = 0xB4 then 'Ž'
  else if b = 0xB8 then 'ž' else if b = 0xBC then 'Œ'
  else if b = 0xBD then 'œ' else if b = 0xBE then 'Ÿ'
  else Char.ofNat b

def decodeLatin9 (data : List Nat) : String :=
  String.mk (data.map latin9Char)

/-- `bytes.decode(encName)` for the encodings the download path can see.
`us-ascii` is the charset label the catalog most commonly carries.  An
unknown codec name is modelled as a failed decode and falls through to the
next entry of the chain (CPython would raise `LookupError`; the names reaching
this point come from the catalog's `charset=` labels). -/
def pyDecode (encName : String) (data : List Nat) : Option String :=
  if encName = "utf-8" then decodeUtf8 data
  else if encName = "iso-8859-1" then some (decodeLatin1 data)
  else if encName = "windows-1252" then decodeCp1252 data
  else if encName = "iso-8859-15" then some (decodeLatin9 data)
  else if encName = "us-ascii" then
    (if data.all (fun b => b < 0x80) then some (decodeLatin1 data) else none)
  else none

/-- The `for enc in encs: try: return …decode(enc)` loop. -/
def firstDecode : List String → List Nat → Option String
  | [], _ => none
  | e :: rest, data =>
    match pyDecode e data with
    | some t => some t
    | none => firstDecode rest data

/-- `download_ebook_text`: `url`, catalog encoding, catalog timestamp
(`prev_mod`), prior-download timestamp (`downloaded`, empty when the LEFT
OUTER JOIN produced no row), the response's parsed modification header and
body.  Returns `none` when the task is abandoned. -/
def download_ebook_text (url enc prev_mod downloaded : String)
    (server : PyDateTime) (data : List Nat) : Option (String × String × String) :=
  let last_mod := get_last_modified server
  if downloaded = "" || pyGe last_mod prev_mod then
    match firstDecode [enc, "utf-8", "iso-8859-1", "windows-1252", "iso-8859-15"]
        data with
    | some text => some (url, prev_mod, text)
    | none => none
  else
    none

theorem firstDecode_chain_total (enc : String) (data : List Nat) :
    ∃ t, firstDecode [enc, "utf-8", "iso-8859-1", "windows-1252", "iso-8859-15"]
      data = some t := by
  simp only [firstDecode]
  cases h1 : pyDecode enc data with
  | some t => exact ⟨t, rfl⟩
  | none =>
    cases h2 : pyDecode "utf-8" data with
    | some t => exact ⟨t, rfl⟩
    | none =>
      refine ⟨decodeLatin1 data, ?_⟩
      simp [pyDecode]

/-- C7: with a prior successful download the task is abandoned without error
exactly when the server's modification time plus the one-day slop is still
older than the catalog timestamp; with no prior download the body is always
fetched and returned; and the timestamp handed to persistence is the
catalog's `prev_mod`, never the server's. -/
theorem claim_C7_freshness (url enc prev_mod downloaded : String)
    (server : PyDateTime) (data : List Nat) :
    (downloaded ≠ "" →
      (download_ebook_text url enc prev_mod downloaded server data = none ↔
        pyLt (get_last_modified server) prev_mod = true))
    ∧ (downloaded = "" → ∃ text,
        download_ebook_text url enc prev_mod downloaded server data
          = some (url, prev_mod, text))
    ∧ (∀ u lm text,
        download_ebook_text url enc prev_mod downloaded server data
          = some (u, lm, text) → u = url ∧ lm = prev_mod) := by
  obtain ⟨t0, ht0⟩ := firstDecode_chain_total enc data
  refine ⟨?_, ?_, ?_⟩
  · intro hdl
    simp only [download_ebook_text, ht0]
    by_cases hcond : (downloaded = "" || pyGe (get_last_modified server) prev_mod) = true
    · rw [if_pos hcond]
      constructor
      · intro hnone
        exact absurd hnone (by simp)
      · intro hlt
        exfalso
        simp only [Bool.or_eq_true, decide_eq_true_eq] at hcond
        rcases hcond with h | h
        · exact hdl h
        · simp only [pyGe, hlt] at h
          exact absurd h (by decide)
    · rw [if_neg hcond]
      constructor
      · intro _
        simp only [Bool.or_eq_true, decide_eq_true_eq] at hcond
        push_neg at hcond
        have hge : pyGe (get_last_modified server) prev_mod = false := by
          cases hq : pyGe (get_last_modified server) prev_mod with
          | false => rfl
          | true => exact absurd hq hcond.2
        cases hq : pyLt (get_last_modified server) prev_mod with
        | true => rfl
        | false => simp [pyGe, hq] at hge
      · intro _
        rfl
  · intro hdl
    refine ⟨t0, ?_⟩
    simp only [download_ebook_text, ht0]
    rw [if_pos]
    simp [hdl]
  · intro u lm text h
    simp only [download_ebook_text, ht0] at h
    by_cases hcond : (downloaded = "" || pyGe (get_last_modified server) prev_mod) = true
    · rw [if_pos hcond] at h
      simp only [Option.some.injEq, Prod.mk.injEq] at h
      exact ⟨h.1.symm, h.2.1.symm⟩
    · rw [if_neg hcond] at h
      exact absurd h (by simp)

theorem claim_C7_freshness_witness :
    (download_ebook_text "http://m/0/3/3.txt" "utf-8" "2020-06-01 00:00:00"
        "2020-05-02 12:00:00" ⟨2020, 5, 30, 10, 0, 0⟩ [72, 105] = none)
    ∧ (∃ text, download_ebook_text "http://m/0/3/3.txt" "utf-8"
        "2020-06-01 00:00:00" "" ⟨2020, 5, 30, 10, 0, 0⟩ [72, 105]
        = some ("http://m/0/3/3.txt", "2020-06-01 00:00:00", text)) :=
  ⟨((claim_C7_freshness "http://m/0/3/3.txt" "utf-8" "2020-06-01 00:00:00"
      "2020-05-02 12:00:00" ⟨2020, 5, 30, 10, 0, 0⟩ [72, 105]).1
      (by decide)).mpr (by decide),
   (claim_C7_freshness "http://m/0/3/3.txt" "utf-8" "2020-06-01 00:00:00"
      "" ⟨2020, 5, 30, 10, 0, 0⟩ [72, 105]).2.1 rfl⟩

/-! ## Claim C8: `extract_download_infos` encoding preference

One surviving file entry of `find_versions`: URL, encoding label, formatted
modification timestamp. -/

structure FileVersion where
  url : String
  enc : String
  lastMod : String
deriving DecidableEq, Repr

/-- Descending order on catalog timestamps, the key order of
`files.sort(key=lambda x: x[2], reverse=True)`. -/
def descByLastMod (a b : FileVersion) : Prop := pyGe a.lastMod b.lastMod = true

instance : DecidableRel descByLastMod :=
  fun a b => inferInstanceAs (Decidable (pyGe a.lastMod b.lastMod = true))

instance : IsTotal FileVersion descByLastMod where
  total a b := by
    rcases Bool.or_eq_true _ _ |>.mp (pyGe_total a.lastMod b.lastMod) with h | h
    · exact Or.inl h
    · exact Or.inr h

instance : IsTrans FileVersion descByLastMod where
  trans _ _ _ hab hbc := pyGe_trans hab hbc

/-- `encs.setdefault(enc, []).append((url, last_mod))`: append to the bucket
of key `e` if present (keeping its position), else append a new bucket at the
end — Python dicts preserve insertion order. -/
def addEnc (encs : List (String × List (String × String))) (e : String)
    (v : String × String) : List (String × List (String × String)) :=
  match encs with
  | [] => [(e, [v])]
  | (k, vs) :: rest =>
    if k = e then (k, vs ++ [v]) :: rest
    else (k, vs) :: addEnc rest e v

def buildEncs (files : List FileVersion) : List (String × List (String × String)) :=
  files.foldl (fun acc f => addEnc acc f.enc (f.url, f.lastMod)) []

/-- `encs[e]` as an option. -/
def lookupEnc (encs : List (String × List (String × String))) (e : String) :
    Option (List (String × String)) :=
  (encs.find? (fun p => p.1 = e)).map (fun p => p.2)

/-- Python `s.split(sep)` for a one-character separator (keeping empty
pieces); `acc` is the reversed current piece. -/
def splitOnCharAux (sep : Char) : List Char → List Char → List (List Char)
  | [], acc => [acc.reverse]
  | c :: rest, acc =>
    if c = sep then acc.reverse :: splitOnCharAux sep rest []
    else splitOnCharAux sep rest (c :: acc)

def splitSlash (s : String) : List String :=
  (splitOnCharAux '/' s.data []).map String.mk

/-- The constant part of the final URL: `url.rsplit("/", 2)`, keep the
`dir/name` form when the directory is a legacy `etext…` one, else just the
name.  (A URL without any `/` would make the Python indexing fail; catalog
URLs always contain slashes.) -/
def extractName (url : String) : String :=
  match (splitSlash url).reverse with
  | name :: dir :: _ => if pyStartsWith dir "etext" then dir ++ "/" ++ name else name
  | [name] => name
  | [] => url

/-- `if len(encs) > 1 and "us-ascii" in encs: del encs["us-ascii"]`. -/
def pruneAscii (encs : List (String × List (String × String))) :
    List (String × List (String × String)) :=
  if encs.length > 1 ∧ encs.any (fun p => p.1 = "us-ascii") then
    List.eraseP (fun p => p.1 == "us-ascii") encs
  else encs

/-- The selection at the end of `extract_download_infos`: prefer the UTF-8
bucket's first (most recent) entry, else `encs.popitem()` — the last
inserted bucket.  The `[]` bucket branches are unreachable (`buildEncs` only
builds non-empty buckets, and `encs` is non-empty whenever `files` is). -/
def pickEntry (encs : List (String × List (String × String))) :
    Option (String × String × String) :=
  match lookupEnc encs "utf-8" with
  | some vals =>
    match vals with
    | (url, lastMod) :: _ => some (extractName url, "utf-8", lastMod)
    | [] => none
  | none =>
    match encs.getLast? with
    | some (enc, vals) =>
      match vals with
      | (url, lastMod) :: _ => some (extractName url, enc, lastMod)
      | [] => none
    | none => none

/-- `extract_download_infos` given the surviving entries of `find_versions`.
Python's `list.sort` is a stable sort and stable sorting results are unique,
so `List.insertionSort` by the same key order is an exact model of
`files.sort(key=lambda x: x[2], reverse=True)`. -/
def extract_download_infos (files : List FileVersion) :
    Option (String × String × String) :=
  if files.isEmpty then none
  else pickEntry (pruneAscii (buildEncs (files.insertionSort descByLastMod)))

example :
    extract_download_infos
      [⟨"http://www.gutenberg.org/files/11716/11716.txt", "us-ascii", "2004-01-01 00:00:00"⟩,
       ⟨"http://www.gutenberg.org/files/11716/11716-0.txt", "utf-8", "2004-02-01 00:00:00"⟩]
      = some ("11716-0.txt", "utf-8", "2004-02-01 00:00:00") := by decide

example :
    extract_download_infos
      [⟨"http://www.gutenberg.org/files/11716/11716-8.txt", "iso-8859-1", "2004-03-01 00:00:00"⟩,
       ⟨"http://www.gutenberg.org/files/11716/11716-0.txt", "utf-8", "2004-02-01 00:00:00"⟩,
       ⟨"http://www.gutenberg.org/files/11716/11716-1.txt", "utf-8", "2004-04-01 00:00:00"⟩]
      = some ("11716-1.txt", "utf-8", "2004-04-01 00:00:00") := by decide

theorem pyGe_refl (a : String) : pyGe a a = true := by
  simp [pyGe, pyLt, strLtb_irrefl]

theorem lookupEnc_nil (e : String) : lookupEnc [] e = none := rfl

theorem lookupEnc_cons_eq (pvs : List (String × String))
    (rest : List (String × List (String × String))) (e : String) :
    lookupEnc ((e, pvs) :: rest) e = some pvs := by
  simp [lookupEnc, List.find?_cons]

theorem lookupEnc_cons_ne {pk e : String} (h : pk ≠ e)
    (pvs : List (String × String))
    (rest : List (String × List (String × String))) :
    lookupEnc ((pk, pvs) :: rest) e = lookupEnc rest e := by
  simp [lookupEnc, List.find?_cons, h]

theorem addEnc_lookup (acc : List (String × List (String × String)))
    (k : String) (v : String × String) (e : String) :
    lookupEnc (addEnc acc k v) e =
      if k = e then some (((lookupEnc acc e).getD []) ++ [v])
      else lookupEnc acc e := by
  induction acc with
  | nil =>
    by_cases h : k = e
    · subst h
      simp [addEnc, lookupEnc_cons_eq, lookupEnc_nil]
    · rw [if_neg h, lookupEnc_nil]
      simp only [addEnc]
      rw [lookupEnc_cons_ne h, lookupEnc_nil]
  | cons p rest ih =>
    obtain ⟨pk, pvs⟩ := p
    by_cases hpk : pk = k
    · subst hpk
      have ha : addEnc ((pk, pvs) :: rest) pk v = (pk, pvs ++ [v]) :: rest := by
        simp [addEnc]
      rw [ha]
      by_cases hke : pk = e
      · subst hke
        rw [if_pos rfl, lookupEnc_cons_eq, lookupEnc_cons_eq]
        rfl
      · rw [if_neg hke, lookupEnc_cons_ne hke, lookupEnc_cons_ne hke]
    · have ha : addEnc ((pk, pvs) :: rest) k v = (pk, pvs) :: addEnc rest k v := by
        simp [addEnc, hpk]
      rw [ha]
      by_cases hpe : pk = e
      · subst hpe
        have hke : ¬ k = pk := fun h => hpk h.symm
        rw [if_neg hke, lookupEnc_cons_eq, lookupEnc_cons_eq]
      · rw [lookupEnc_cons_ne hpe, lookupEnc_cons_ne hpe, ih]

theorem buildEncsFold_lookup :
    ∀ (files : List FileVersion) (acc : List (String × List (String × String)))
      (e : String),
      lookupEnc (files.foldl (fun a f => addEnc a f.enc (f.url, f.lastMod)) acc) e =
        match lookupEnc acc e with
        | some vs =>
          some (vs ++ (files.filter (fun f => f.enc == e)).map
            (fun f => (f.url, f.lastMod)))
        | none =>
          if files.any (fun f => f.enc == e) then
            some ((files.filter (fun f => f.enc == e)).map
              (fun f => (f.url, f.lastMod)))
          else none := by
  intro files
  induction files with
  | nil =>
    intro acc e
    cases h : lookupEnc acc e <;> simp [h]
  | cons f fs ih =>
    intro acc e
    simp only [List.foldl_cons]
    rw [ih, addEnc_lookup]
    by_cases he : f.enc = e
    · rw [if_pos he]
      have hbeq : (f.enc == e) = true := by simp [he]
      cases h : lookupEnc acc e with
      | some vs => simp [h, List.filter_cons, hbeq, List.append_assoc]
      | none => simp [h, List.filter_cons, List.any_cons, hbeq]
    · rw [if_neg he]
      have hbeq : (f.enc == e) = false := by simp [he]
      cases h : lookupEnc acc e with
      | some vs => simp [h, List.filter_cons, hbeq]
      | none => simp [h, List.filter_cons, List.any_cons, hbeq]

theorem buildEncs_lookup (files : List FileVersion) (e : String) :
    lookupEnc (buildEncs files) e =
      if files.any (fun f => f.enc == e) then
        some ((files.filter (fun f => f.enc == e)).map (fun f => (f.url, f.lastMod)))
      else none := by
  have h := buildEncsFold_lookup files [] e
  rw [buildEncs]
  rw [h, lookupEnc_nil]

theorem addEnc_keys (acc : List (String × List (String × String)))
    (k : String) (v : String × String) :
    (addEnc acc k v).map Prod.fst =
      if k ∈ acc.map Prod.fst then acc.map Prod.fst
      else acc.map Prod.fst ++ [k] := by
  induction acc with
  | nil => simp [addEnc]
  | cons p rest ih =>
    obtain ⟨pk, pvs⟩ := p
    by_cases h : pk = k
    · subst h
      simp [addEnc]
    · have h' : ¬ k = pk := fun hh => h hh.symm
      simp only [addEnc, if_neg h, List.map_cons, List.mem_cons]
      by_cases hm : k ∈ rest.map Prod.fst
      · simp [ih, hm, h']
      · simp [ih, hm, h']

theorem buildEncsFold_keys_nodup :
    ∀ (files : List FileVersion) (acc : List (String × List (String × String))),
      (acc.map Prod.fst).Nodup →
      ((files.foldl (fun a f => addEnc a f.enc (f.url, f.lastMod)) acc).map
        Prod.fst).Nodup := by
  intro files
  induction files with
  | nil => intro acc h; simpa using h
  | cons f fs ih =>
    intro acc h
    simp only [List.foldl_cons]
    apply ih
    rw [addEnc_keys]
    by_cases hm : f.enc ∈ acc.map Prod.fst
    · rw [if_pos hm]; exact h
    · rw [if_neg hm]
      simp [List.nodup_append, h, hm]

theorem buildEncs_keys_nodup (files : List FileVersion) :
    ((buildEncs files).map Prod.fst).Nodup :=
  buildEncsFold_keys_nodup files [] (by simp)

theorem lookupEnc_isSome_iff (acc : List (String × List (String × String)))
    (e : String) :
    (∃ vs, lookupEnc acc e = some vs) ↔ e ∈ acc.map Prod.fst := by
  induction acc with
  | nil => simp [lookupEnc_nil]
  | cons p rest ih =>
    obtain ⟨pk, pvs⟩ := p
    by_cases h : pk = e
    · subst h
      simp [lookupEnc_cons_eq]
    · have h' : ¬ e = pk := fun hh => h hh.symm
      simp [lookupEnc_cons_ne h, ih, h']

theorem addEnc_buckets_ne (acc : List (String × List (String × String)))
    (k : String) (v : String × String) (h : ∀ p ∈ acc, p.2 ≠ []) :
    ∀ p ∈ addEnc acc k v, p.2 ≠ [] := by
  induction acc with
  | nil =>
    intro p hp
    simp only [addEnc, List.mem_singleton] at hp
    subst hp
    simp
  | cons q rest ih =>
    obtain ⟨qk, qvs⟩ := q
    by_cases hq : qk = k
    · subst hq
      simp only [addEnc, if_pos rfl]
      intro p hp
      rcases List.mem_cons.mp hp with rfl | hp'
      · simp
      · exact h p (List.mem_cons_of_mem _ hp')
    · simp only [addEnc, if_neg hq]
      intro p hp
      rcases List.mem_cons.mp hp with rfl | hp'
      · exact h _ (List.mem_cons_self _ _)
      · exact ih (fun q hq' => h q (List.mem_cons_of_mem _ hq')) p hp'

theorem buildEncsFold_buckets_ne :
    ∀ (files : List FileVersion) (acc : List (String × List (String × String))),
      (∀ p ∈ acc, p.2 ≠ []) →
      ∀ p ∈ files.foldl (fun a f => addEnc a f.enc (f.url, f.lastMod)) acc,
        p.2 ≠ [] := by
  intro files
  induction files with
  | nil => intro acc h; simpa using h
  | cons f fs ih =>
    intro acc h
    simp only [List.foldl_cons]
    exact ih _ (addEnc_buckets_ne acc f.enc (f.url, f.lastMod) h)

theorem buildEncs_buckets_ne (files : List FileVersion) :
    ∀ p ∈ buildEncs files, p.2 ≠ [] :=
  buildEncsFold_buckets_ne files [] (by simp)

theorem lookupEnc_eraseP_ne (l : List (String × List (String × String)))
    {a e : String} (h : a ≠ e) :
    lookupEnc (List.eraseP (fun q => q.1 == a) l) e = lookupEnc l e := by
  induction l with
  | nil => simp
  | cons p rest ih =>
    obtain ⟨pk, pvs⟩ := p
    by_cases hpa : pk = a
    · have hne2 : pk ≠ e := fun hh => h (hpa.symm.trans hh)
      rw [List.eraseP_cons_of_pos (by simp [hpa])]
      rw [lookupEnc_cons_ne hne2]
    · rw [List.eraseP_cons_of_neg (by simp [hpa])]
      by_cases hpe : pk = e
      · subst hpe
        rw [lookupEnc_cons_eq, lookupEnc_cons_eq]
      · rw [lookupEnc_cons_ne hpe, lookupEnc_cons_ne hpe, ih]

theorem mem_eraseP_key_ne :
    ∀ {l : List (String × List (String × String))} {a : String},
      (l.map Prod.fst).Nodup →
      ∀ p ∈ List.eraseP (fun q => q.1 == a) l, p.1 ≠ a := by
  intro l
  induction l with
  | nil => intro a _ p hp; simp at hp
  | cons q rest ih =>
    intro a hnd p hp
    obtain ⟨qk, qvs⟩ := q
    simp only [List.map_cons, List.nodup_cons] at hnd
    by_cases hq : qk = a
    · subst hq
      rw [List.eraseP_cons_of_pos (by simp)] at hp
      intro heq
      exact hnd.1 (heq ▸ List.mem_map_of_mem Prod.fst hp)
    · rw [List.eraseP_cons_of_neg (by simp [hq])] at hp
      rcases List.mem_cons.mp hp with rfl | hp'
      · exact hq
      · exact ih hnd.2 p hp'

theorem eraseP_length_ge (p : (String × List (String × String)) → Bool)
    (l : List (String × List (String × String))) :
    l.length ≤ (List.eraseP p l).length + 1 := by
  induction l with
  | nil => simp
  | cons a rest ih =>
    by_cases h : p a = true
    · rw [List.eraseP_cons_of_pos h]
      simp
    · rw [List.eraseP_cons_of_neg h]
      simpa using Nat.succ_le_succ ih

theorem two_mem_one_lt_length {l : List String} {a b : String}
    (ha : a ∈ l) (hb : b ∈ l) (hab : a ≠ b) : 1 < l.length := by
  cases l with
  | nil => simp at ha
  | cons x rest =>
    cases rest with
    | nil =>
      simp only [List.mem_singleton] at ha hb
      exact absurd (ha.trans hb.symm) hab
    | cons y t =>
      simp only [List.length_cons]
      omega

/-- C8: on a non-empty entry list, `extract_download_infos` always picks a
canonical entry; if the entries span more than one encoding the us-ascii
entries can never be picked; and if a utf-8 entry exists, the pick is a utf-8
entry — specifically the most recently modified utf-8 entry. -/
theorem claim_C8_encoding_preference (files : List FileVersion)
    (hne : files ≠ []) :
    ∃ name enc lastMod,
      extract_download_infos files = some (name, enc, lastMod)
      ∧ ((∃ f ∈ files, ∃ g ∈ files, f.enc ≠ g.enc) → enc ≠ "us-ascii")
      ∧ ((∃ f ∈ files, f.enc = "utf-8") →
          enc = "utf-8"
          ∧ (∃ f ∈ files, f.enc = "utf-8" ∧ f.lastMod = lastMod ∧
              name = extractName f.url)
          ∧ (∀ f ∈ files, f.enc = "utf-8" → pyGe lastMod f.lastMod = true)) := by
  have hperm := List.perm_insertionSort descByLastMod files
  have hsorted := List.sorted_insertionSort descByLastMod files
  have h0 : ¬ files.isEmpty = true := by simp [List.isEmpty_iff, hne]
  have hunfold : extract_download_infos files
      = pickEntry (pruneAscii (buildEncs (files.insertionSort descByLastMod))) := by
    simp only [extract_download_infos, if_neg h0]
  generalize hS : files.insertionSort descByLastMod = S at hperm hsorted hunfold
  by_cases hu : ∃ f ∈ files, f.enc = "utf-8"
  · obtain ⟨f0, hf0, hf0e⟩ := hu
    have hf0s : f0 ∈ S := hperm.mem_iff.mpr hf0
    have hany : S.any (fun f => f.enc == "utf-8") = true :=
      List.any_eq_true.mpr ⟨f0, hf0s, by simp [hf0e]⟩
    have hlook := buildEncs_lookup S "utf-8"
    rw [if_pos hany] at hlook
    have hlook' : lookupEnc (pruneAscii (buildEncs S)) "utf-8"
        = some ((S.filter (fun f => f.enc == "utf-8")).map
            (fun f => (f.url, f.lastMod))) := by
      rw [pruneAscii]
      by_cases hc : (buildEncs S).length > 1 ∧
          (buildEncs S).any (fun p => p.1 = "us-ascii") = true
      · rw [if_pos hc, lookupEnc_eraseP_ne _ (by decide), hlook]
      · rw [if_neg hc, hlook]
    have hfmem : f0 ∈ S.filter (fun f => f.enc == "utf-8") :=
      List.mem_filter.mpr ⟨hf0s, by simp [hf0e]⟩
    cases hvals : (S.filter (fun f => f.enc == "utf-8")).map
        (fun f => (f.url, f.lastMod)) with
    | nil =>
      exfalso
      have hm := List.mem_map_of_mem (fun f => (f.url, f.lastMod)) hfmem
      rw [hvals] at hm
      simp at hm
    | cons v vrest =>
      obtain ⟨url1, lm1⟩ := v
      have hlk : lookupEnc (pruneAscii (buildEncs S)) "utf-8"
          = some ((url1, lm1) :: vrest) := by rw [hlook', hvals]
      refine ⟨extractName url1, "utf-8", lm1, ?_, ?_, ?_⟩
      · rw [hunfold]
        simp only [pickEntry, hlk]
      · intro _
        decide
      · intro _
        refine ⟨rfl, ?_, ?_⟩
        · have hhead : (url1, lm1) ∈ (S.filter (fun f => f.enc == "utf-8")).map
              (fun f => (f.url, f.lastMod)) := by
            rw [hvals]
            exact List.mem_cons_self _ _
          obtain ⟨g, hg, hgeq⟩ := List.mem_map.mp hhead
          have hgf := List.mem_filter.mp hg
          have hgurl : g.url = url1 := congrArg Prod.fst hgeq
          have hglm : g.lastMod = lm1 := congrArg Prod.snd hgeq
          exact ⟨g, hperm.mem_iff.mp hgf.1, by simpa using hgf.2, hglm,
            by rw [hgurl]⟩
        · intro f hf hfe
          have hfs : f ∈ S := hperm.mem_iff.mpr hf
          have hfmem2 : (f.url, f.lastMod) ∈ (S.filter
              (fun f => f.enc == "utf-8")).map (fun f => (f.url, f.lastMod)) :=
            List.mem_map_of_mem _ (List.mem_filter.mpr ⟨hfs, by simp [hfe]⟩)
          rw [hvals] at hfmem2
          have hpair : List.Pairwise
              (fun p q : String × String => pyGe p.2 q.2 = true)
              ((S.filter (fun f => f.enc == "utf-8")).map
                (fun f => (f.url, f.lastMod))) := by
            apply List.Pairwise.map
            · intro a b hab
              exact hab
            · exact List.Pairwise.sublist (List.filter_sublist _) hsorted
          rw [hvals] at hpair
          rcases List.mem_cons.mp hfmem2 with heq | hmem
          · have hflm : f.lastMod = lm1 := congrArg Prod.snd heq
            rw [hflm]
            exact pyGe_refl lm1
          · exact (List.pairwise_cons.mp hpair).1 _ hmem
  · have hnany : S.any (fun f => f.enc == "utf-8") = false := by
      cases hA : S.any (fun f => f.enc == "utf-8")
      · rfl
      · exfalso
        obtain ⟨f, hfs, hfe⟩ := List.any_eq_true.mp hA
        exact hu ⟨f, hperm.mem_iff.mp hfs, by simpa using hfe⟩
    have hlook := buildEncs_lookup S "utf-8"
    rw [if_neg (by simp [hnany])] at hlook
    have hlook' : lookupEnc (pruneAscii (buildEncs S)) "utf-8" = none := by
      rw [pruneAscii]
      by_cases hc : (buildEncs S).length > 1 ∧
          (buildEncs S).any (fun p => p.1 = "us-ascii") = true
      · rw [if_pos hc, lookupEnc_eraseP_ne _ (by decide), hlook]
      · rw [if_neg hc, hlook]
    obtain ⟨f0, hf0⟩ : ∃ f, f ∈ files := by
      cases files with
      | nil => exact absurd rfl hne
      | cons a l => exact ⟨a, List.mem_cons_self _ _⟩
    have hkeymem : ∀ (e : String) (f' : FileVersion), f' ∈ files → f'.enc = e →
        e ∈ (buildEncs S).map Prod.fst := by
      intro e f' hf' he
      apply (lookupEnc_isSome_iff _ _).mp
      rw [buildEncs_lookup, if_pos (List.any_eq_true.mpr
        ⟨f', hperm.mem_iff.mpr hf', by simp [he]⟩)]
      exact ⟨_, rfl⟩
    have hencsne : buildEncs S ≠ [] := by
      intro hnil
      have := hkeymem f0.enc f0 hf0 rfl
      rw [hnil] at this
      simp at this
    have hprunene : pruneAscii (buildEncs S) ≠ [] := by
      rw [pruneAscii]
      by_cases hc : (buildEncs S).length > 1 ∧
          (buildEncs S).any (fun p => p.1 = "us-ascii") = true
      · rw [if_pos hc]
        have h2 : 1 < (buildEncs S).length := hc.1
        have h3 := eraseP_length_ge (fun p => p.1 == "us-ascii") (buildEncs S)
        intro hnil
        rw [hnil] at h3
        simp at h3
        omega
      · rw [if_neg hc]
        exact hencsne
    cases hlast : (pruneAscii (buildEncs S)).getLast? with
    | none =>
      exfalso
      exact hprunene (List.getLast?_eq_none_iff.mp hlast)
    | some p =>
      obtain ⟨k, vals⟩ := p
      have hpmem : (k, vals) ∈ pruneAscii (buildEncs S) :=
        List.mem_of_mem_getLast? hlast
      have hpmem0 : (k, vals) ∈ buildEncs S := by
        rw [pruneAscii] at hpmem
        split at hpmem
        · exact (List.eraseP_sublist _).subset hpmem
        · exact hpmem
      have hvalsne : vals ≠ [] := buildEncs_buckets_ne S _ hpmem0
      cases hv : vals with
      | nil => exact absurd hv hvalsne
      | cons v vrest =>
        obtain ⟨url1, lm1⟩ := v
        rw [hv] at hlast
        refine ⟨extractName url1, k, lm1, ?_, ?_, ?_⟩
        · rw [hunfold]
          simp only [pickEntry, hlook', hlast]
        · rintro ⟨f, hf, g, hg, hfg⟩
          have hfk := hkeymem f.enc f hf rfl
          have hgk := hkeymem g.enc g hg rfl
          have hlen : 1 < ((buildEncs S).map Prod.fst).length :=
            two_mem_one_lt_length hfk hgk hfg
          rw [List.length_map] at hlen
          by_cases hasc : (buildEncs S).any (fun p => p.1 = "us-ascii") = true
          · have hc : (buildEncs S).length > 1 ∧
                (buildEncs S).any (fun p => p.1 = "us-ascii") = true :=
              ⟨hlen, hasc⟩
            have hmem' : (k, vals) ∈ List.eraseP (fun p => p.1 == "us-ascii")
                (buildEncs S) := by
              rw [pruneAscii, if_pos hc] at hpmem
              exact hpmem
            exact mem_eraseP_key_ne (buildEncs_keys_nodup S) _ hmem'
          · intro hk
            exact hasc (List.any_eq_true.mpr ⟨(k, vals), hpmem0, by simp [hk]⟩)
        · intro hu'
          exact absurd hu' hu

/-- A us-ascii and a utf-8 rendition of the same book. -/
def exampleVersions : List FileVersion :=
  [⟨"http://www.gutenberg.org/files/11716/11716.txt", "us-ascii",
    "2004-01-01 00:00:00"⟩,
   ⟨"http://www.gutenberg.org/files/11716/11716-0.txt", "utf-8",
    "2004-02-01 00:00:00"⟩]

theorem claim_C8_encoding_preference_witness :
    ∃ name enc lastMod,
      extract_download_infos exampleVersions = some (name, enc, lastMod)
      ∧ enc ≠ "us-ascii" ∧ enc = "utf-8" :=
  match claim_C8_encoding_preference exampleVersions (by decide) with
  | ⟨name, enc, lastMod, hres, hascii, hutf⟩ =>
    ⟨name, enc, lastMod, hres, hascii (by decide), (hutf (by decide)).1⟩

/-! ## Claim C9: `find_versions` filtering and `parse_xml` record discard

One declared file-format entry of a catalog record: the list of
`dcterms:format` MIME values, the `rdf:about` URL, and the `dcterms:modified`
text. -/

structure FileEntry where
  formats : List String
  url : String
  modified : String
deriving DecidableEq, Repr

/-- Modelled from the Python standard library: `str.lower` on the ASCII
range (the file extensions compared here are ASCII). -/
def pyLowerChar (c : Char) : Char :=
  if 'A' ≤ c ∧ c ≤ 'Z' then Char.ofNat (c.toNat + 32) else c

/-- `os.path.splitext(url)[1].lower()`: the extension of the last path
segment, where the dot must not belong to the leading-dots run of the
segment. -/
def splitextExtLower (url : String) : String :=
  let base := ((splitOnCharAux '/' url.data []).getLast?).getD []
  let revBody := base.reverse.takeWhile (fun c => c ≠ '.')
  let rest := base.reverse.dropWhile (fun c => c ≠ '.')
  match rest with
  | [] => ""
  | _ :: before =>
    if before.any (fun c => c ≠ '.') then
      String.mk (('.' :: revBody.reverse).map pyLowerChar)
    else ""

/-- `c :: "txt"` for any character `c` and end of string: the suffix `.txt$`
of the name pattern — the dot is unescaped in the Python regex, so it matches
any character. -/
def matchDotTxt : List Char → Bool
  | [c, 't', 'x', 't'] => c = c
  | _ => false

/-- The alternation `\d|txt|u|body|utf-16|utf-8` followed by `.txt$`. -/
def matchSuffixAlt (r : List Char) : Bool :=
  (match r with
   | d :: rest => d.isDigit && matchDotTxt rest
   | [] => false)
  || (String.data "txt").isPrefixOf r && matchDotTxt (r.drop 3)
  || (String.data "u").isPrefixOf r && matchDotTxt (r.drop 1)
  || (String.data "body").isPrefixOf r && matchDotTxt (r.drop 4)
  || (String.data "utf-16").isPrefixOf r && matchDotTxt (r.drop 6)
  || (String.data "utf-8").isPrefixOf r && matchDotTxt (r.drop 5)

/-- `re.match(r"^{key}(-(\d|txt|u|body|utf-16|utf-8))?.txt$", name)`: the name
must start with the decimal book id, then optionally a dash and one of the
known suffixes, then any single character and `txt`, end of string. -/
def pyNameMatch (key : Nat) (name : String) : Bool :=
  let ks := (Nat.repr key).data
  ks.isPrefixOf name.data &&
    (let r := name.data.drop ks.length
     matchDotTxt r ||
       (match r with
        | '-' :: r' => matchSuffixAlt r'
        | _ => false))

/-- `re.match("text/plain; charset=(.+)", mime)` and the
`encoding and encoding.group(1) or "utf-8"` idiom.  (The unescaped regex dots
can only match the literal characters here because `find_versions` reaches
this point only for MIME strings that literally start with `text/plain`.) -/
def encodingOf (mime : String) : String :=
  if pyStartsWith mime "text/plain; charset=" then
    (let rest := mime.data.drop ("text/plain; charset=".data.length)
     if rest.isEmpty then "utf-8" else String.mk rest)
  else "utf-8"

/-- `re.findall(r"\d+", s)` converted to numbers: the maximal decimal-digit
runs of `s`.  `acc` carries the run being read. -/
def digitRunsAux : List Char → Option Nat → List Nat
  | [], acc =>
    (match acc with
     | some n => [n]
     | none => [])
  | c :: rest, acc =>
    if c.isDigit then
      (match acc with
       | some n => digitRunsAux rest (some (n * 10 + (c.toNat - 48)))
       | none => digitRunsAux rest (some (c.toNat - 48)))
    else
      (match acc with
       | some n => n :: digitRunsAux rest none
       | none => digitRunsAux rest none)

/-- Modelled from the Python standard library:
`datetime.datetime(*parts)` — at least year/month/day, at most seven integer
arguments, all within range; anything else raises (modelled as `none`). -/
def pyDatetimeOfParts (parts : List Nat) : Option PyDateTime :=
  if 3 ≤ parts.length ∧ parts.length ≤ 7 then
    let y := parts.getD 0 0
    let mo := parts.getD 1 0
    let d := parts.getD 2 0
    let hh := parts.getD 3 0
    let mi := parts.getD 4 0
    let s := parts.getD 5 0
    let us := parts.getD 6 0
    if 1 ≤ y ∧ y ≤ 9999 ∧ 1 ≤ mo ∧ mo ≤ 12 ∧ 1 ≤ d ∧ d ≤ daysInMonth y mo ∧
        hh ≤ 23 ∧ mi ≤ 59 ∧ s ≤ 59 ∧ us ≤ 999999 then
      some ⟨y, mo, d, hh, mi, s⟩
    else none
  else none

/-- `url.rsplit("/")[-2:]`: second-to-last path segment (the directory). -/
def dirOf (url : String) : String :=
  match (splitSlash url).reverse with
  | _ :: d :: _ => d
  | _ => ""

/-- `url.rsplit("/")[-2:]`: last path segment (the file name). -/
def baseOf (url : String) : String :=
  match (splitSlash url).reverse with
  | n :: _ => n
  | [] => ""

/-- `files.get(url, ("", ""))[1]` on the url-keyed dict, represented as an
insertion-ordered list of `(url, encoding, last_mod)`. -/
def lookupUrl : List (String × String × String) → String → Option (String × String)
  | [], _ => none
  | (u', e', m') :: rest, u =>
    if u' = u then some (e', m') else lookupUrl rest u

/-- `files[url] = (encoding, last_mod)`: replace in place or append. -/
def setUrl : List (String × String × String) → String → String × String →
    List (String × String × String)
  | [], u, v => [(u, v.1, v.2)]
  | (u', e', m') :: rest, u, v =>
    if u' = u then (u', v.1, v.2) :: rest
    else (u', e', m') :: setUrl rest u v

/-- The entry loop of `find_versions`.  `none` models a raised exception
(an unparsable `dcterms:modified` value); `some files` is the accumulated
url-keyed dict in insertion order. -/
def findVersionsGo (key : Nat) : List FileEntry →
    List (String × String × String) → Option (List (String × String × String))
  | [], files => some files
  | entry :: rest, files =>
    match entry.formats with
    | [fmt] =>
      let mime := pyStrip fmt
      if ¬ pyStartsWith mime "text/plain" = true then findVersionsGo key rest files
      else
        let url := pyStrip entry.url
        if splitextExtLower url ≠ ".txt" then findVersionsGo key rest files
        else if pyStartsWith (dirOf url) "etext" = true ∨
            pyNameMatch key (baseOf url) = true then
          match pyDatetimeOfParts (digitRunsAux entry.modified.data none) with
          | none => none
          | some dt =>
            let last_mod := fmtDateTime dt
            let prev := ((lookupUrl files url).map Prod.snd).getD ""
            if pyLt prev last_mod = true then
              findVersionsGo key rest (setUrl files url (encodingOf mime, last_mod))
            else findVersionsGo key rest files
        else findVersionsGo key rest files
    | _ => findVersionsGo key rest files

/-- `find_versions`: the list of surviving `(url, encoding, last_mod)`
triples, or `none` for a raised exception. -/
def find_versions (key : Nat) (entries : List FileEntry) :
    Option (List (String × String × String)) :=
  findVersionsGo key entries []

/-- The download-target part of `parse_xml`: `none` models an exception
escaping `parse_xml`; `some none` is the `name is None` outcome that
`update_catalog` silently skips with `continue`; `some (some target)` is a
parsed record. -/
def parse_xml_download_target (key : Nat) (entries : List FileEntry) :
    Option (Option (String × String × String)) :=
  match find_versions key entries with
  | none => none
  | some files =>
    some (extract_download_infos (files.map (fun v => ⟨v.1, v.2.1, v.2.2⟩)))

example :
    find_versions 123
      [⟨["text/plain; charset=utf-8", "application/zip"],
        "http://www.gutenberg.org/files/123/123.zip", "2006-01-01"⟩,
       ⟨["text/plain; charset=utf-8"],
        "http://www.gutenberg.org/ebooks/123.txt.utf-8", "2006-01-01"⟩]
      = some [] := by decide

example :
    find_versions 123
      [⟨["text/plain; charset=us-ascii"],
        "http://www.gutenberg.org/files/123/123.txt", "2006-05-04"⟩]
      = some [("http://www.gutenberg.org/files/123/123.txt", "us-ascii",
          "2006-05-04 00:00:00")] := by decide

theorem setUrl_mem :
    ∀ (files : List (String × String × String)) (u : String)
      (v : String × String) (w : String × String × String),
      w ∈ setUrl files u v → w ∈ files ∨ w = (u, v.1, v.2) := by
  intro files
  induction files with
  | nil =>
    intro u v w hw
    simp only [setUrl, List.mem_singleton] at hw
    exact Or.inr hw
  | cons p rest ih =>
    obtain ⟨u', e', m'⟩ := p
    intro u v w hw
    by_cases h : u' = u
    · simp only [setUrl, if_pos h] at hw
      rcases List.mem_cons.mp hw with rfl | hw'
      · exact Or.inr (by rw [h])
      · exact Or.inl (List.mem_cons_of_mem _ hw')
    · simp only [setUrl, if_neg h] at hw
      rcases List.mem_cons.mp hw with rfl | hw'
      · exact Or.inl (List.mem_cons_self _ _)
      · rcases ih u v w hw' with hl | hr
        · exact Or.inl (List.mem_cons_of_mem _ hl)
        · exact Or.inr hr

/-- An output triple of `find_versions` only ever arises from an entry that
passed the MIME and extension filters, and its URL is that entry's stripped
URL. -/
def keptEntry (e : FileEntry) (v : String × String × String) : Prop :=
  ∃ fmt, e.formats = [fmt]
    ∧ pyStartsWith (pyStrip fmt) "text/plain" = true
    ∧ splitextExtLower (pyStrip e.url) = ".txt"
    ∧ v.1 = pyStrip e.url

theorem findVersionsGo_kept (key : Nat) :
    ∀ (entries : List FileEntry) (acc out : List (String × String × String)),
      findVersionsGo key entries acc = some out →
      ∀ v ∈ out, v ∈ acc ∨ ∃ e ∈ entries, keptEntry e v := by
  intro entries
  induction entries with
  | nil =>
    intro acc out h v hv
    simp only [findVersionsGo, Option.some.injEq] at h
    exact Or.inl (h ▸ hv)
  | cons entry rest ih =>
    intro acc out h v hv
    have step :
        (∃ acc', (acc' = acc ∨ ∃ enc lm, acc' = setUrl acc (pyStrip entry.url) (enc, lm)
            ∧ keptEntry entry (pyStrip entry.url, enc, lm))
          ∧ findVersionsGo key rest acc' = some out) := by
      cases hfm : entry.formats with
      | nil =>
        refine ⟨acc, Or.inl rfl, ?_⟩
        simp only [findVersionsGo, hfm] at h
        exact h
      | cons f1 fs =>
        cases fs with
        | nil =>
          simp only [findVersionsGo, hfm] at h
          by_cases h1 : pyStartsWith (pyStrip f1) "text/plain" = true
          · rw [if_neg (by simpa using h1)] at h
            by_cases h2 : splitextExtLower (pyStrip entry.url) = ".txt"
            · rw [if_neg (by simpa using h2)] at h
              by_cases h3 : pyStartsWith (dirOf (pyStrip entry.url)) "etext" = true ∨
                  pyNameMatch key (baseOf (pyStrip entry.url)) = true
              · rw [if_pos h3] at h
                cases hdt : pyDatetimeOfParts (digitRunsAux entry.modified.data none) with
                | none =>
                  simp only [hdt] at h
                  exact absurd h (by simp)
                | some dt =>
                  simp only [hdt] at h
                  by_cases h4 : pyLt (((lookupUrl acc (pyStrip entry.url)).map
                      Prod.snd).getD "") (fmtDateTime dt) = true
                  · rw [if_pos h4] at h
                    refine ⟨_, Or.inr ⟨encodingOf (pyStrip f1), fmtDateTime dt, rfl, ?_⟩, h⟩
                    exact ⟨f1, hfm, h1, h2, rfl⟩
                  · rw [if_neg h4] at h
                    exact ⟨acc, Or.inl rfl, h⟩
              · rw [if_neg h3] at h
                exact ⟨acc, Or.inl rfl, h⟩
            · rw [if_pos (by simpa using h2)] at h
              exact ⟨acc, Or.inl rfl, h⟩
          · rw [if_pos (by simpa using h1)] at h
            exact ⟨acc, Or.inl rfl, h⟩
        | cons f2 fs' =>
          refine ⟨acc, Or.inl rfl, ?_⟩
          simp only [findVersionsGo, hfm] at h
          exact h
    obtain ⟨acc', hacc', hrest⟩ := step
    rcases ih acc' out hrest v hv with hmem | ⟨e, he, hke⟩
    · rcases hacc' with rfl | ⟨enc, lm, rfl, hkept⟩
      · exact Or.inl hmem
      · rcases setUrl_mem acc (pyStrip entry.url) (enc, lm) v hmem with hl | rfl
        · exact Or.inl hl
        · exact Or.inr ⟨entry, List.mem_cons_self _ _, hkept⟩
    · exact Or.inr ⟨e, List.mem_cons_of_mem _ he, hke⟩

/-- C9: `find_versions` keeps a file entry only if its (single) declared MIME
type starts with `text/plain` and its URL's lower-cased extension is exactly
`.txt` — which is why ZIP entries (two declared formats) and auto-generated
`.txt.utf-8` renditions are excluded (closed third and fourth conjuncts show
the spec's example record surviving with no entries and being skipped); and
a record with no surviving entry yields no download target and is silently
skipped rather than raised (`some none`, not `none`). -/
theorem claim_C9_plain_text_filter :
    (∀ (key : Nat) (entries : List FileEntry)
      (files : List (String × String × String)),
      find_versions key entries = some files →
      ∀ v ∈ files, ∃ e ∈ entries, keptEntry e v)
    ∧ (∀ (key : Nat) (entries : List FileEntry),
      find_versions key entries = some [] →
      parse_xml_download_target key entries = some none)
    ∧ find_versions 123
        [⟨["text/plain; charset=utf-8", "application/zip"],
          "http://www.gutenberg.org/files/123/123.zip", "2006-01-01"⟩,
         ⟨["text/plain; charset=utf-8"],
          "http://www.gutenberg.org/ebooks/123.txt.utf-8", "2006-01-01"⟩]
        = some []
    ∧ parse_xml_download_target 123
        [⟨["text/plain; charset=utf-8", "application/zip"],
          "http://www.gutenberg.org/files/123/123.zip", "2006-01-01"⟩,
         ⟨["text/plain; charset=utf-8"],
          "http://www.gutenberg.org/ebooks/123.txt.utf-8", "2006-01-01"⟩]
        = some none := by
  refine ⟨?_, ?_, by decide, by decide⟩
  · intro key entries files h v hv
    rcases findVersionsGo_kept key entries [] files h v hv with hmem | hgood
    · simp at hmem
    · exact hgood
  · intro key entries h
    simp [parse_xml_download_target, h, extract_download_infos]

theorem claim_C9_plain_text_filter_witness :
    (∃ e ∈ [(⟨["text/plain; charset=us-ascii"],
        "http://www.gutenberg.org/files/123/123.txt", "2006-05-04"⟩ : FileEntry)],
      keptEntry e ("http://www.gutenberg.org/files/123/123.txt", "us-ascii",
        "2006-05-04 00:00:00"))
    ∧ parse_xml_download_target 123
        [⟨["text/plain; charset=utf-8", "application/zip"],
          "http://www.gutenberg.org/files/123/123.zip", "2006-01-01"⟩,
         ⟨["text/plain; charset=utf-8"],
          "http://www.gutenberg.org/ebooks/123.txt.utf-8", "2006-01-01"⟩]
        = some none :=
  ⟨claim_C9_plain_text_filter.1 123
      [⟨["text/plain; charset=us-ascii"],
        "http://www.gutenberg.org/files/123/123.txt", "2006-05-04"⟩]
      [("http://www.gutenberg.org/files/123/123.txt", "us-ascii",
        "2006-05-04 00:00:00")] (by decide) _ (by decide),
   claim_C9_plain_text_filter.2.1 123
      [⟨["text/plain; charset=utf-8", "application/zip"],
        "http://www.gutenberg.org/files/123/123.zip", "2006-01-01"⟩,
       ⟨["text/plain; charset=utf-8"],
        "http://www.gutenberg.org/ebooks/123.txt.utf-8", "2006-01-01"⟩]
      (by decide)⟩

/-! ## Claims C4 and C5: `normalize` (the search folding)

`from string import ascii_uppercase`. -/

def ascii_uppercase : String := "ABCDEFGHIJKLMNOPQRSTUVWXYZ"

/-- Modelled from the Python standard library:
`unicodedata.normalize("NFKC", ·)` as a per-character map, restricted to a
repertoire of compatibility/canonical singletons; all other characters are
left unchanged, and every table output is itself NFKC-stable. -/
def NFKC_TBL : List (Char × String) := [
  ('\u212b', "\u00c5"), ('\u2126', "\u03a9"), ('\ufb00', "ff"),
  ('\ufb01', "fi"), ('\ufb02', "fl"), ('\u00a0', " "),
  ('\u2460', "1"), ('\u2160', "I")]

def nfkcChar (c : Char) : List Char :=
  match NFKC_TBL.find? (fun e => e.1 = c) with
  | some e => e.2.data
  | none => [c]

def nfkc (l : List Char) : List Char := l.flatMap nfkcChar

/-- Modelled from the Python standard library: `str.casefold` as a
per-character map on a repertoire of cased letters (ASCII, Latin-1, a few
Latin Extended-A letters); other characters fold to themselves. -/
def CASEFOLD_TBL : List (Char × String) := [
  ('A', "a"), ('B', "b"), ('C', "c"), ('D', "d"),
  ('E', "e"), ('F', "f"), ('G', "g"), ('H', "h"),
  ('I', "i"), ('J', "j"), ('K', "k"), ('L', "l"),
  ('M', "m"), ('N', "n"), ('O', "o"), ('P', "p"),
  ('Q', "q"), ('R', "r"), ('S', "s"), ('T', "t"),
  ('U', "u"), ('V', "v"), ('W', "w"), ('X', "x"),
  ('Y', "y"), ('Z', "z"), ('À', "à"), ('Á', "á"),
  ('Â', "â"), ('Ã', "ã"), ('Ä', "ä"), ('Å', "å"),
  ('Æ', "æ"), ('Ç', "ç"), ('È', "è"), ('É', "é"),
  ('Ê', "ê"), ('Ë', "ë"), ('Ì', "ì"), ('Í', "í"),
  ('Î', "î"), ('Ï', "ï"), ('Ð', "ð"), ('Ñ', "ñ"),
  ('Ò', "ò"), ('Ó', "ó"), ('Ô', "ô"), ('Õ', "õ"),
  ('Ö', "ö"), ('Ø', "ø"), ('Ù', "ù"), ('Ú', "ú"),
  ('Û', "û"), ('Ü', "ü"), ('Ý', "ý"), ('Þ', "þ"),
  ('ß', "ss"), ('Œ', "œ"), ('Š', "š"), ('Ž', "ž"),
  ('Ÿ', "ÿ")]

def casefoldChar (c : Char) : List Char :=
  match CASEFOLD_TBL.find? (fun e => e.1 = c) with
  | some e => e.2.data
  | none => [c]

/-- Python `s.split()` (split on Unicode whitespace, dropping empty pieces);
`acc` is the reversed current token. -/
def splitWsAux : List Char → List Char → List (List Char)
  | [], acc => if acc.isEmpty then [] else [acc.reverse]
  | c :: rest, acc =>
    if isPyWs c then
      (if acc.isEmpty then splitWsAux rest [] else acc.reverse :: splitWsAux rest [])
    else splitWsAux rest (c :: acc)

/-- `" ".join(tokens)`. -/
def joinSpace : List (List Char) → List Char
  | [] => []
  | [t] => t
  | t :: ts => t ++ ' ' :: joinSpace ts

/-- One character of
`"".join(c in ascii_uppercase and c or c.casefold() for c in s)`:
ASCII uppercase is kept as is, everything else is casefolded. -/
def foldChar (c : Char) : List Char :=
  if ascii_uppercase.data.contains c then [c] else casefoldChar c

/-- `str.translate(LIGATURES_TBL)`: the two ligatures NFKC does not cover. -/
def ligChar (c : Char) : List Char :=
  if c = '\u0153' then "oe".data else if c = '\u00e6' then "ae".data else [c]

/-- `normalize`: NFKC, whitespace collapse, selective casefold, ligature
expansion. -/
def normalize (s : String) : String :=
  let t := nfkc s.data
  let t := joinSpace (splitWsAux t [])
  let t := t.flatMap foldChar
  let t := t.flatMap ligChar
  String.mk t

example : normalize "\u0152uvre" = "oeuvre" := by decide
example : normalize "OEUVRE" = "OEUVRE" := by decide
example : normalize "  a\u00a0b  " = "a b" := by decide
example : normalize (normalize "\u0152uvre  \u00c6sop") = normalize "\u0152uvre  \u00c6sop" := by decide

theorem flatMap_fix_id {f : Char → List Char} :
    ∀ {l : List Char}, (∀ c ∈ l, f c = [c]) → l.flatMap f = l := by
  intro l
  induction l with
  | nil => intro _; rfl
  | cons c rest ih =>
    intro h
    rw [List.flatMap_cons, h c (List.mem_cons_self _ _),
      ih (fun d hd => h d (List.mem_cons_of_mem _ hd))]
    rfl

theorem flatMap_ne {f : Char → List Char} (hf : ∀ c, f c ≠ []) :
    ∀ {l : List Char}, l ≠ [] → l.flatMap f ≠ [] := by
  intro l h
  cases l with
  | nil => exact absurd rfl h
  | cons c rest =>
    rw [List.flatMap_cons]
    intro hnil
    exact hf c (List.append_eq_nil.mp hnil).1

theorem nfkcChar_out_fix (c : Char) : ∀ d ∈ nfkcChar c, nfkcChar d = [d] := by
  intro d hd
  rw [nfkcChar] at hd
  cases hf : NFKC_TBL.find? (fun e => e.1 = c) with
  | none =>
    rw [hf] at hd
    simp only [List.mem_singleton] at hd
    subst hd
    rw [nfkcChar, hf]
  | some e =>
    rw [hf] at hd
    exact (by decide : ∀ e ∈ NFKC_TBL, ∀ d ∈ e.2.data, nfkcChar d = [d])
      e (List.mem_of_find?_eq_some hf) d hd

theorem nfkc_out_fix (l : List Char) : ∀ c ∈ nfkc l, nfkcChar c = [c] := by
  intro c hc
  obtain ⟨c0, _, hc0⟩ := List.mem_flatMap.mp hc
  exact nfkcChar_out_fix c0 c hc0

theorem foldChar_out (c : Char) :
    ∀ d ∈ foldChar c, foldChar d = [d]
      ∧ (nfkcChar c = [c] → nfkcChar d = [d])
      ∧ (isPyWs c = false → isPyWs d = false) := by
  intro d hd
  rw [foldChar] at hd
  by_cases hup : ascii_uppercase.data.contains c = true
  · rw [if_pos hup] at hd
    simp only [List.mem_singleton] at hd
    subst hd
    exact ⟨by rw [foldChar, if_pos hup], fun h => h, fun h => h⟩
  · rw [if_neg hup, casefoldChar] at hd
    cases hf : CASEFOLD_TBL.find? (fun e => e.1 = c) with
    | none =>
      rw [hf] at hd
      simp only [List.mem_singleton] at hd
      subst hd
      refine ⟨?_, fun h => h, fun h => h⟩
      rw [foldChar, if_neg hup, casefoldChar, hf]
    | some e =>
      rw [hf] at hd
      have he := List.mem_of_find?_eq_some hf
      exact ⟨(by decide : ∀ e ∈ CASEFOLD_TBL, ∀ d ∈ e.2.data, foldChar d = [d])
          e he d hd,
        fun _ => (by decide : ∀ e ∈ CASEFOLD_TBL, ∀ d ∈ e.2.data,
          nfkcChar d = [d]) e he d hd,
        fun _ => (by decide : ∀ e ∈ CASEFOLD_TBL, ∀ d ∈ e.2.data,
          isPyWs d = false) e he d hd⟩

theorem ligChar_out (c : Char) :
    ∀ d ∈ ligChar c, ligChar d = [d]
      ∧ (nfkcChar c = [c] → nfkcChar d = [d])
      ∧ (foldChar c = [c] → foldChar d = [d])
      ∧ (isPyWs c = false → isPyWs d = false) := by
  intro d hd
  rw [ligChar] at hd
  by_cases h1 : c = 'œ'
  · rw [if_pos h1] at hd
    have hdd := (by decide : ∀ d ∈ ("oe".data), ligChar d = [d]
      ∧ nfkcChar d = [d] ∧ foldChar d = [d] ∧ isPyWs d = false) d hd
    exact ⟨hdd.1, fun _ => hdd.2.1, fun _ => hdd.2.2.1, fun _ => hdd.2.2.2⟩
  · rw [if_neg h1] at hd
    by_cases h2 : c = 'æ'
    · rw [if_pos h2] at hd
      have hdd := (by decide : ∀ d ∈ ("ae".data), ligChar d = [d]
        ∧ nfkcChar d = [d] ∧ foldChar d = [d] ∧ isPyWs d = false) d hd
      exact ⟨hdd.1, fun _ => hdd.2.1, fun _ => hdd.2.2.1, fun _ => hdd.2.2.2⟩
    · rw [if_neg h2] at hd
      simp only [List.mem_singleton] at hd
      subst hd
      exact ⟨by rw [ligChar, if_neg h1, if_neg h2], fun h => h, fun h => h,
        fun h => h⟩

theorem foldChar_ne (c : Char) : foldChar c ≠ [] := by
  rw [foldChar]
  by_cases hup : ascii_uppercase.data.contains c = true
  · rw [if_pos hup]; simp
  · rw [if_neg hup, casefoldChar]
    cases hf : CASEFOLD_TBL.find? (fun e => e.1 = c) with
    | none => simp
    | some e =>
      exact (by decide : ∀ e ∈ CASEFOLD_TBL, e.2.data ≠ [])
        e (List.mem_of_find?_eq_some hf)

theorem ligChar_ne (c : Char) : ligChar c ≠ [] := by
  rw [ligChar]
  by_cases h1 : c = 'œ'
  · rw [if_pos h1]; simp
  · rw [if_neg h1]
    by_cases h2 : c = 'æ'
    · rw [if_pos h2]; simp
    · rw [if_neg h2]; simp

theorem splitWsAux_all (P : Char → Prop) :
    ∀ (l acc : List Char), (∀ c ∈ l, P c) → (∀ c ∈ acc, P c) →
      ∀ t ∈ splitWsAux l acc, ∀ c ∈ t, P c := by
  intro l
  induction l with
  | nil =>
    intro acc _ hacc t ht c hc
    simp only [splitWsAux] at ht
    by_cases he : acc.isEmpty = true
    · rw [if_pos he] at ht
      simp at ht
    · rw [if_neg he] at ht
      simp only [List.mem_singleton] at ht
      subst ht
      exact hacc c (List.mem_reverse.mp hc)
  | cons x rest ih =>
    intro acc hl hacc t ht c hc
    have hl' : ∀ c ∈ rest, P c := fun d hd => hl d (List.mem_cons_of_mem _ hd)
    simp only [splitWsAux] at ht
    by_cases hw : isPyWs x = true
    · rw [if_pos hw] at ht
      by_cases he : acc.isEmpty = true
      · rw [if_pos he] at ht
        exact ih [] hl' (by simp) t ht c hc
      · rw [if_neg he] at ht
        rcases List.mem_cons.mp ht with rfl | ht'
        · exact hacc c (List.mem_reverse.mp hc)
        · exact ih [] hl' (by simp) t ht' c hc
    · rw [if_neg hw] at ht
      refine ih (x :: acc) hl' ?_ t ht c hc
      intro d hd
      rcases List.mem_cons.mp hd with rfl | hd'
      · exact hl d (List.mem_cons_self _ _)
      · exact hacc d hd'

theorem splitWsAux_noWs :
    ∀ (l acc : List Char), (∀ c ∈ acc, isPyWs c = false) →
      ∀ t ∈ splitWsAux l acc, ∀ c ∈ t, isPyWs c = false := by
  intro l
  induction l with
  | nil =>
    intro acc hacc t ht c hc
    simp only [splitWsAux] at ht
    by_cases he : acc.isEmpty = true
    · rw [if_pos he] at ht
      simp at ht
    · rw [if_neg he] at ht
      simp only [List.mem_singleton] at ht
      subst ht
      exact hacc c (List.mem_reverse.mp hc)
  | cons x rest ih =>
    intro acc hacc t ht c hc
    simp only [splitWsAux] at ht
    by_cases hw : isPyWs x = true
    · rw [if_pos hw] at ht
      by_cases he : acc.isEmpty = true
      · rw [if_pos he] at ht
        exact ih [] (by simp) t ht c hc
      · rw [if_neg he] at ht
        rcases List.mem_cons.mp ht with rfl | ht'
        · exact hacc c (List.mem_reverse.mp hc)
        · exact ih [] (by simp) t ht' c hc
    · rw [if_neg hw] at ht
      refine ih (x :: acc) ?_ t ht c hc
      intro d hd
      rcases List.mem_cons.mp hd with rfl | hd'
      · simpa using hw
      · exact hacc d hd'

theorem splitWsAux_ne :
    ∀ (l acc : List Char), ∀ t ∈ splitWsAux l acc, t ≠ [] := by
  intro l
  induction l with
  | nil =>
    intro acc t ht
    simp only [splitWsAux] at ht
    by_cases he : acc.isEmpty = true
    · rw [if_pos he] at ht
      simp at ht
    · rw [if_neg he] at ht
      simp only [List.mem_singleton] at ht
      subst ht
      simpa [List.isEmpty_iff] using he
  | cons x rest ih =>
    intro acc t ht
    simp only [splitWsAux] at ht
    by_cases hw : isPyWs x = true
    · rw [if_pos hw] at ht
      by_cases he : acc.isEmpty = true
      · rw [if_pos he] at ht
        exact ih [] t ht
      · rw [if_neg he] at ht
        rcases List.mem_cons.mp ht with rfl | ht'
        · simpa [List.isEmpty_iff] using he
        · exact ih [] t ht'
    · rw [if_neg hw] at ht
      exact ih (x :: acc) t ht

theorem splitWsAux_chunk :
    ∀ (t : List Char), (∀ c ∈ t, isPyWs c = false) →
      ∀ (rest acc : List Char),
        splitWsAux (t ++ rest) acc = splitWsAux rest (t.reverse ++ acc) := by
  intro t
  induction t with
  | nil => intro _ rest acc; simp
  | cons x t' ih =>
    intro h rest acc
    simp only [List.cons_append, splitWsAux, List.append_eq]
    rw [if_neg (by simp [h x (List.mem_cons_self _ _)])]
    rw [ih (fun d hd => h d (List.mem_cons_of_mem _ hd)) rest (x :: acc)]
    congr 1
    simp

theorem splitWs_joinSpace :
    ∀ (ts : List (List Char)),
      (∀ t ∈ ts, t ≠ [] ∧ ∀ c ∈ t, isPyWs c = false) →
      splitWsAux (joinSpace ts) [] = ts := by
  intro ts
  induction ts with
  | nil => intro _; rfl
  | cons t ts' ih =>
    intro h
    have ht := h t (List.mem_cons_self _ _)
    have hne : t.reverse.isEmpty = false := by
      simp [List.isEmpty_iff, ht.1]
    cases ts' with
    | nil =>
      have h1 := splitWsAux_chunk t ht.2 [] []
      simp only [List.append_nil] at h1
      rw [show joinSpace [t] = t from rfl, h1]
      simp only [splitWsAux]
      rw [if_neg (by simp [hne])]
      simp
    | cons t2 ts'' =>
      rw [show joinSpace (t :: t2 :: ts'') = t ++ ' ' :: joinSpace (t2 :: ts'')
        from rfl]
      rw [splitWsAux_chunk t ht.2 _ []]
      simp only [splitWsAux]
      rw [if_pos (by decide)]
      rw [if_neg (by simp [hne])]
      rw [ih (fun u hu => h u (List.mem_cons_of_mem _ hu))]
      simp

theorem joinSpace_all (P : Char → Prop) (hsp : P ' ') :
    ∀ (ts : List (List Char)), (∀ t ∈ ts, ∀ c ∈ t, P c) →
      ∀ c ∈ joinSpace ts, P c := by
  intro ts
  induction ts with
  | nil => intro _ c hc; simp [joinSpace] at hc
  | cons t ts' ih =>
    intro h c hc
    cases ts' with
    | nil => exact h t (List.mem_cons_self _ _) c hc
    | cons t2 ts'' =>
      rw [show joinSpace (t :: t2 :: ts'') = t ++ ' ' :: joinSpace (t2 :: ts'')
        from rfl] at hc
      rcases List.mem_append.mp hc with hc1 | hc2
      · exact h t (List.mem_cons_self _ _) c hc1
      · rcases List.mem_cons.mp hc2 with rfl | hc3
        · exact hsp
        · exact ih (fun u hu => h u (List.mem_cons_of_mem _ hu)) c hc3

theorem flatMap_joinSpace (f : Char → List Char) (hf : f ' ' = [' ']) :
    ∀ (ts : List (List Char)),
      (joinSpace ts).flatMap f = joinSpace (ts.map (fun t => t.flatMap f)) := by
  intro ts
  induction ts with
  | nil => rfl
  | cons t ts' ih =>
    cases ts' with
    | nil => rfl
    | cons t2 ts'' =>
      rw [show joinSpace (t :: t2 :: ts'') = t ++ ' ' :: joinSpace (t2 :: ts'')
        from rfl]
      rw [List.flatMap_append, List.flatMap_cons, hf, ih]
      rfl

/-- C4: the search folding is idempotent — `normalize (normalize s)` equals
`normalize s` for every string.  The proof shows that every character of a
folded string is a fixpoint of the NFKC, casefold and ligature stages, and
that the folded string is a single-space join of non-empty whitespace-free
tokens, which the whitespace collapse maps to itself. -/
theorem claim_C4_normalize_idempotent (s : String) :
    normalize (normalize s) = normalize s := by
  have htokall := splitWsAux_all (fun c => nfkcChar c = [c]) (nfkc s.data) []
    (nfkc_out_fix s.data) (by simp)
  have htokws := splitWsAux_noWs (nfkc s.data) [] (by simp)
  have htokne := splitWsAux_ne (nfkc s.data) []
  have hr : (normalize s).data =
      joinSpace ((splitWsAux (nfkc s.data) []).map
        (fun t => (t.flatMap foldChar).flatMap ligChar)) := by
    simp only [normalize]
    rw [flatMap_joinSpace foldChar (by decide),
      flatMap_joinSpace ligChar (by decide)]
    rw [List.map_map]
    rfl
  have hchars : ∀ c ∈ (normalize s).data,
      nfkcChar c = [c] ∧ foldChar c = [c] ∧ ligChar c = [c] := by
    rw [hr]
    apply joinSpace_all
      (fun c => nfkcChar c = [c] ∧ foldChar c = [c] ∧ ligChar c = [c])
      (by decide)
    intro t' ht' c hc
    obtain ⟨t, ht, rfl⟩ := List.mem_map.mp ht'
    obtain ⟨d, hd, hcd⟩ := List.mem_flatMap.mp hc
    obtain ⟨c0, hc0, hdc0⟩ := List.mem_flatMap.mp hd
    have h0 : nfkcChar c0 = [c0] := htokall t ht c0 hc0
    have hfo := foldChar_out c0 d hdc0
    have hlo := ligChar_out d c hcd
    exact ⟨hlo.2.1 (hfo.2.1 h0), hlo.2.2.1 hfo.1, hlo.1⟩
  have htok' : ∀ t' ∈ (splitWsAux (nfkc s.data) []).map
      (fun t => (t.flatMap foldChar).flatMap ligChar),
      t' ≠ [] ∧ ∀ c ∈ t', isPyWs c = false := by
    intro t' ht'
    obtain ⟨t, ht, rfl⟩ := List.mem_map.mp ht'
    constructor
    · exact flatMap_ne ligChar_ne (flatMap_ne foldChar_ne (htokne t ht))
    · intro c hc
      obtain ⟨d, hd, hcd⟩ := List.mem_flatMap.mp hc
      obtain ⟨c0, hc0, hdc0⟩ := List.mem_flatMap.mp hd
      exact (ligChar_out d c hcd).2.2.2
        ((foldChar_out c0 d hdc0).2.2 (htokws t ht c0 hc0))
  generalize hgen : normalize s = r at hchars hr ⊢
  have e1 : nfkc r.data = r.data :=
    flatMap_fix_id (fun c hc => (hchars c hc).1)
  have e2 : splitWsAux (nfkc r.data) [] =
      (splitWsAux (nfkc s.data) []).map
        (fun t => (t.flatMap foldChar).flatMap ligChar) := by
    rw [e1, hr]
    exact splitWs_joinSpace _ htok'
  have e3 : joinSpace ((splitWsAux (nfkc s.data) []).map
      (fun t => (t.flatMap foldChar).flatMap ligChar)) = r.data := hr.symm
  have e4 : r.data.flatMap foldChar = r.data :=
    flatMap_fix_id (fun c hc => (hchars c hc).2.1)
  have e5 : r.data.flatMap ligChar = r.data :=
    flatMap_fix_id (fun c hc => (hchars c hc).2.2)
  simp only [normalize]
  rw [e2, e3, e4, e5]

/-- The claim's comparator for "token sequences differing only by
already-ASCII casing": lower-case the ASCII letters. -/
def asciiLower (s : String) : String := String.mk (s.data.map pyLowerChar)

/-- C5: the folding keeps ASCII uppercase letters as they are (first
conjunct) and leaves ASCII lowercase letters unchanged (second conjunct,
stated on code points 97–122), case-folds every other character (third
conjunct, definitional), and maps both ligatures and their uppercase forms to
their two-letter ASCII expansions; `Œuvre` and `OEUVRE` fold to token
sequences equal up to ASCII casing, both containing `oeuvre`. -/
theorem claim_C5_fold_behaviour :
    (∀ c : Char, ascii_uppercase.data.contains c = true → foldChar c = [c])
    ∧ (∀ c : Char, 97 ≤ c.toNat → c.toNat ≤ 122 → foldChar c = [c])
    ∧ (∀ c : Char, ¬ ascii_uppercase.data.contains c = true →
        foldChar c = casefoldChar c)
    ∧ normalize "Œ" = "oe" ∧ normalize "œ" = "oe"
    ∧ normalize "Æ" = "ae" ∧ normalize "æ" = "ae"
    ∧ normalize "Œuvre" = "oeuvre" ∧ normalize "OEUVRE" = "OEUVRE"
    ∧ asciiLower (normalize "Œuvre") = asciiLower (normalize "OEUVRE")
    ∧ asciiLower (normalize "OEUVRE") = "oeuvre" := by
  refine ⟨?_, ?_, ?_, by decide, by decide, by decide, by decide, by decide,
    by decide, by decide, by decide⟩
  · intro c h
    rw [foldChar, if_pos h]
  · intro c h1 h2
    have hcf : casefoldChar c = [c] := by
      rw [casefoldChar]
      cases hf : CASEFOLD_TBL.find? (fun e => e.1 = c) with
      | none => rfl
      | some e =>
        exfalso
        have he := List.mem_of_find?_eq_some hf
        have hec : e.1 = c := of_decide_eq_true
          (@List.find?_some _ (fun e => decide (e.1 = c)) e CASEFOLD_TBL hf)
        have hrange := (by decide :
          ∀ e ∈ CASEFOLD_TBL, e.1.toNat < 97 ∨ 122 < e.1.toNat) e he
        rw [hec] at hrange
        omega
    rw [foldChar]
    by_cases hup : ascii_uppercase.data.contains c = true
    · rw [if_pos hup]
    · rw [if_neg hup]
      exact hcf
  · intro c h
    rw [foldChar, if_neg h]

theorem claim_C5_fold_behaviour_witness :
    foldChar 'Q' = ['Q'] ∧ foldChar 'q' = ['q']
    ∧ foldChar 'Œ' = casefoldChar 'Œ' :=
  ⟨claim_C5_fold_behaviour.1 'Q' (by decide),
   claim_C5_fold_behaviour.2.1 'q' (by decide) (by decide),
   claim_C5_fold_behaviour.2.2.1 'Œ' (by decide)⟩

/-! ## Claim C10: `cleanup` idempotence -/

theorem nfcChar_out_fix (c : Char) : ∀ d ∈ nfcChar c, nfcChar d = [d] := by
  intro d hd
  rw [nfcChar] at hd
  cases hf : NFC_TBL.find? (fun e => e.1 = c) with
  | none =>
    rw [hf] at hd
    simp only [List.mem_singleton] at hd
    subst hd
    rw [nfcChar, hf]
  | some e =>
    rw [hf] at hd
    exact (by decide : ∀ e ∈ NFC_TBL, ∀ d ∈ e.2.data, nfcChar d = [d])
      e (List.mem_of_find?_eq_some hf) d hd

theorem nfc_out_fix (l : List Char) : ∀ c ∈ nfc l, nfcChar c = [c] := by
  intro c hc
  obtain ⟨c0, _, hc0⟩ := List.mem_flatMap.mp hc
  exact nfcChar_out_fix c0 c hc0

theorem joinNl_all (P : Char → Prop) (hnl : P '\n') :
    ∀ (ts : List (List Char)), (∀ t ∈ ts, ∀ c ∈ t, P c) →
      ∀ c ∈ joinNl ts, P c := by
  intro ts
  induction ts with
  | nil => intro _ c hc; simp [joinNl] at hc
  | cons t ts' ih =>
    intro h c hc
    cases ts' with
    | nil => exact h t (List.mem_cons_self _ _) c hc
    | cons t2 ts'' =>
      rw [show joinNl (t :: t2 :: ts'') = t ++ '\n' :: joinNl (t2 :: ts'')
        from rfl] at hc
      rcases List.mem_append.mp hc with hc1 | hc2
      · exact h t (List.mem_cons_self _ _) c hc1
      · rcases List.mem_cons.mp hc2 with rfl | hc3
        · exact hnl
        · exact ih (fun u hu => h u (List.mem_cons_of_mem _ hu)) c hc3

theorem splitlinesAux_all (P : Char → Prop) :
    ∀ (l acc : List Char) (flag : Bool),
      (∀ c ∈ l, P c) → (∀ c ∈ acc, P c) →
      ∀ t ∈ splitlinesAux l acc flag, ∀ c ∈ t, P c := by
  intro l
  induction l with
  | nil =>
    intro acc flag _ hacc t ht c hc
    simp only [splitlinesAux] at ht
    by_cases he : acc.isEmpty = true
    · rw [if_pos he] at ht
      simp at ht
    · rw [if_neg he] at ht
      simp only [List.mem_singleton] at ht
      subst ht
      exact hacc c (List.mem_reverse.mp hc)
  | cons x rest ih =>
    intro acc flag hl hacc t ht c hc
    have hl' : ∀ c ∈ rest, P c := fun d hd => hl d (List.mem_cons_of_mem _ hd)
    simp only [splitlinesAux] at ht
    by_cases h1 : flag = true ∧ x = '\n'
    · rw [if_pos h1] at ht
      exact ih acc false hl' hacc t ht c hc
    · rw [if_neg h1] at ht
      by_cases h2 : isPyBreak x = true
      · rw [if_pos h2] at ht
        rcases List.mem_cons.mp ht with rfl | ht'
        · exact hacc c (List.mem_reverse.mp hc)
        · exact ih [] _ hl' (by simp) t ht' c hc
      · rw [if_neg h2] at ht
        refine ih (x :: acc) false hl' ?_ t ht c hc
        intro d hd
        rcases List.mem_cons.mp hd with rfl | hd'
        · exact hl d (List.mem_cons_self _ _)
        · exact hacc d hd'

theorem splitlinesAux_noBreak :
    ∀ (l acc : List Char) (flag : Bool),
      (∀ c ∈ acc, isPyBreak c = false) →
      ∀ t ∈ splitlinesAux l acc flag, ∀ c ∈ t, isPyBreak c = false := by
  intro l
  induction l with
  | nil =>
    intro acc flag hacc t ht c hc
    simp only [splitlinesAux] at ht
    by_cases he : acc.isEmpty = true
    · rw [if_pos he] at ht
      simp at ht
    · rw [if_neg he] at ht
      simp only [List.mem_singleton] at ht
      subst ht
      exact hacc c (List.mem_reverse.mp hc)
  | cons x rest ih =>
    intro acc flag hacc t ht c hc
    simp only [splitlinesAux] at ht
    by_cases h1 : flag = true ∧ x = '\n'
    · rw [if_pos h1] at ht
      exact ih acc false hacc t ht c hc
    · rw [if_neg h1] at ht
      by_cases h2 : isPyBreak x = true
      · rw [if_pos h2] at ht
        rcases List.mem_cons.mp ht with rfl | ht'
        · exact hacc c (List.mem_reverse.mp hc)
        · exact ih [] _ (by simp) t ht' c hc
      · rw [if_neg h2] at ht
        refine ih (x :: acc) false ?_ t ht c hc
        intro d hd
        rcases List.mem_cons.mp hd with rfl | hd'
        · simpa using h2
        · exact hacc d hd'

theorem splitlinesAux_ne_nl :
    ∀ (l acc : List Char), (l ≠ [] ∨ acc ≠ []) →
      (∀ c ∈ l, isPyBreak c = true → c = '\n') →
      splitlinesAux l acc false ≠ [] := by
  intro l
  induction l with
  | nil =>
    intro acc h _
    rcases h with h | h
    · exact absurd rfl h
    · simp only [splitlinesAux]
      rw [if_neg (by simp [List.isEmpty_iff, h])]
      simp
  | cons x rest ih =>
    intro acc _ hbr
    simp only [splitlinesAux]
    rw [if_neg (by simp)]
    by_cases h2 : isPyBreak x = true
    · rw [if_pos h2]
      simp
    · rw [if_neg h2]
      exact ih (x :: acc) (Or.inr (by simp))
        (fun d hd => hbr d (List.mem_cons_of_mem _ hd))

theorem joinNl_splitlinesAux :
    ∀ (l acc : List Char), (∀ c ∈ l, isPyBreak c = true → c = '\n') →
      l.getLast? ≠ some '\n' →
      joinNl (splitlinesAux l acc false) = acc.reverse ++ l := by
  intro l
  induction l with
  | nil =>
    intro acc _ _
    simp only [splitlinesAux]
    by_cases he : acc.isEmpty = true
    · rw [if_pos he]
      have : acc = [] := List.isEmpty_iff.mp he
      subst this
      rfl
    · rw [if_neg he]
      rw [show joinNl [acc.reverse] = acc.reverse from rfl]
      simp
  | cons x rest ih =>
    intro acc hbr hlast
    have hbr' : ∀ c ∈ rest, isPyBreak c = true → c = '\n' :=
      fun d hd => hbr d (List.mem_cons_of_mem _ hd)
    simp only [splitlinesAux]
    rw [if_neg (by simp)]
    by_cases h2 : isPyBreak x = true
    · have hx : x = '\n' := hbr x (List.mem_cons_self _ _) h2
      subst hx
      rw [if_pos h2]
      have hflag : (decide (('\n' : Char) = '\r')) = false := by decide
      rw [hflag]
      cases rest with
      | nil => exact absurd rfl hlast
      | cons y rest' =>
        have hlast' : (y :: rest').getLast? ≠ some '\n' := by
          rw [← List.getLast?_cons_cons]
          exact hlast
        have hIH := ih [] hbr' hlast'
        have hne := splitlinesAux_ne_nl (y :: rest') [] (Or.inl (by simp)) hbr'
        cases hS : splitlinesAux (y :: rest') [] false with
        | nil => exact absurd hS hne
        | cons s ss =>
          rw [hS] at hIH
          rw [show joinNl (acc.reverse :: s :: ss)
            = acc.reverse ++ '\n' :: joinNl (s :: ss) from rfl]
          rw [hIH]
          simp
    · rw [if_neg h2]
      have hlast' : rest.getLast? ≠ some '\n' := by
        cases rest with
        | nil => simp
        | cons y rest' =>
          rw [← List.getLast?_cons_cons]
          exact hlast
      rw [ih (x :: acc) hbr' hlast']
      simp

theorem dropWhile_head_not (p : Char → Bool) :
    ∀ (l : List Char) (c : Char) (rest : List Char),
      l.dropWhile p = c :: rest → p c = false := by
  intro l
  induction l with
  | nil =>
    intro c rest h
    simp at h
  | cons x xs ih =>
    intro c rest h
    by_cases hx : p x = true
    · rw [List.dropWhile_cons_of_pos hx] at h
      exact ih c rest h
    · rw [List.dropWhile_cons_of_neg hx] at h
      injection h with h1 _
      subst h1
      simpa using hx

theorem dropWhile_idem (p : Char → Bool) (l : List Char) :
    (l.dropWhile p).dropWhile p = l.dropWhile p := by
  cases h : l.dropWhile p with
  | nil => rfl
  | cons c rest =>
    rw [List.dropWhile_cons_of_neg (by simp [dropWhile_head_not p l c rest h])]

theorem stripL_mem {l : List Char} : ∀ c ∈ stripL l, c ∈ l := by
  intro c hc
  rw [stripL, List.mem_reverse] at hc
  have h1 := (List.dropWhile_suffix isPyWs).sublist.subset hc
  rw [List.mem_reverse] at h1
  exact (List.dropWhile_suffix isPyWs).sublist.subset h1

theorem stripL_getLast_not (l : List Char) (c : Char)
    (h : (stripL l).getLast? = some c) : isPyWs c = false := by
  rw [stripL, List.getLast?_reverse] at h
  cases hS : ((l.dropWhile isPyWs).reverse).dropWhile isPyWs with
  | nil => rw [hS] at h; simp at h
  | cons d ds =>
    rw [hS] at h
    simp only [List.head?_cons, Option.some.injEq] at h
    rw [← h]
    exact dropWhile_head_not isPyWs _ d ds hS

theorem stripL_head_not (l : List Char) (c : Char) (rest : List Char)
    (h : stripL l = c :: rest) : isPyWs c = false := by
  -- the head of the strip result is the head of the front-stripped list
  have hh : ((l.dropWhile isPyWs).reverse.dropWhile isPyWs).getLast? = some c := by
    rw [← List.head?_reverse, ← stripL, h]
    rfl
  obtain ⟨pre, hpre⟩ :=
    @List.dropWhile_suffix _ ((l.dropWhile isPyWs).reverse) isPyWs
  have h2 : ((l.dropWhile isPyWs).reverse).getLast? = some c := by
    rw [← hpre, List.getLast?_append, hh]
    rfl
  rw [List.getLast?_reverse] at h2
  cases hu : l.dropWhile isPyWs with
  | nil => rw [hu] at h2; simp at h2
  | cons a as =>
    rw [hu] at h2
    simp only [List.head?_cons, Option.some.injEq] at h2
    rw [← h2]
    exact dropWhile_head_not isPyWs l a as hu

theorem stripL_idem (l : List Char) : stripL (stripL l) = stripL l := by
  have h1 : (stripL l).dropWhile isPyWs = stripL l := by
    cases hc : stripL l with
    | nil => simp
    | cons c cs =>
      rw [List.dropWhile_cons_of_neg (by simp [stripL_head_not l c cs hc])]
  rw [stripL, h1, stripL, List.reverse_reverse]
  rw [dropWhile_idem]

/-- C10 counterexample: `cleanup` strips only one leading byte-order mark per
application and Python's `strip()` does not remove U+FEFF, so an input with
two leading BOMs is changed again by a second application — the claim's
"including for inputs that begin with one or more byte-order marks" fails. -/
theorem claim_C10_counterexample :
    cleanup (cleanup "﻿﻿x") ≠ cleanup "﻿﻿x"
    ∧ cleanup "﻿﻿x" = "﻿x"
    ∧ cleanup (cleanup "﻿﻿x") = "x" :=
  ⟨by decide, by decide, by decide⟩

/-- C10 (amended): `cleanup` is idempotent on every input whose cleaned form
does not itself start with a byte-order mark — equivalently, on inputs with
at most one leading BOM ahead of the first non-BOM character.  (A second
application changes exactly those strings whose first cleanup still exposes a
leading BOM, as the counterexample shows.) -/
theorem claim_C10_cleanup_idempotent (x : String)
    (hb : pyStartsWith (cleanup x) "﻿" = false) :
    cleanup (cleanup x) = cleanup x := by
  have hdata : (cleanup x).data =
      stripL (joinNl (splitlinesAux
        (nfc (if pyStartsWith x "﻿" = true then x.data.drop 1 else x.data))
        [] false)) := rfl
  generalize hT : joinNl (splitlinesAux
      (nfc (if pyStartsWith x "﻿" = true then x.data.drop 1 else x.data))
      [] false) = T at hdata
  have hTfix : ∀ c ∈ T, nfcChar c = [c] := by
    rw [← hT]
    apply joinNl_all (fun c => nfcChar c = [c]) (by decide)
    intro t ht c hc
    exact splitlinesAux_all (fun c => nfcChar c = [c]) _ [] false
      (nfc_out_fix _) (by simp) t ht c hc
  have hTbr : ∀ c ∈ T, isPyBreak c = true → c = '\n' := by
    rw [← hT]
    apply joinNl_all (fun c => isPyBreak c = true → c = '\n') (fun _ => rfl)
    intro t ht c hc hbrk
    have := splitlinesAux_noBreak _ [] false (by simp) t ht c hc
    rw [this] at hbrk
    exact absurd hbrk (by simp)
  generalize hr : cleanup x = r at hb hdata ⊢
  have hrfix : ∀ c ∈ r.data, nfcChar c = [c] := by
    intro c hc
    rw [hdata] at hc
    exact hTfix c (stripL_mem c hc)
  have hrbr : ∀ c ∈ r.data, isPyBreak c = true → c = '\n' := by
    intro c hc
    rw [hdata] at hc
    exact hTbr c (stripL_mem c hc)
  have hrlast : r.data.getLast? ≠ some '\n' := by
    intro h
    rw [hdata] at h
    have := stripL_getLast_not T '\n' h
    exact absurd this (by decide)
  have e1 : nfc r.data = r.data := flatMap_fix_id hrfix
  have e2 : joinNl (splitlinesAux r.data [] false) = r.data := by
    have := joinNl_splitlinesAux r.data [] hrbr hrlast
    simpa using this
  have e3 : stripL r.data = r.data := by
    rw [hdata]
    exact stripL_idem T
  simp only [cleanup]
  rw [if_neg (by simp [hb])]
  rw [e1, e2, e3]

theorem claim_C10_cleanup_idempotent_witness :
    pyStartsWith (cleanup "﻿ a\r\nb ") "﻿" = false
    ∧ cleanup (cleanup "﻿ a\r\nb ") = cleanup "﻿ a\r\nb " :=
  ⟨by decide, claim_C10_cleanup_idempotent "﻿ a\r\nb " (by decide)⟩

end Gutenberg
